import Mathlib

/-!
# webpack-after-chunk-hash-plugin: a shallow embedding of `lib/plugin.js`

The plugin runs in webpack's `after-emit` hook.  It recomputes an md5 content
hash for every emitted chunk file, renames the file, and patches the runtime
manifest script, its source map and the JSON manifest.

Modelling conventions

* A JavaScript string is a sequence of UTF-16 code units.  It is modelled as a
  `List Char`, one `Char` per code unit, which is exact for text of the Basic
  Multilingual Plane.
* Host builtins that are not part of the repository (`md5`, `JSON.parse`,
  `JSON.stringify`) are fields of a `Host` record.  So is the regular-expression
  engine for the pattern sources that the development does not interpret
  itself.
* The file system is a finite map from path strings to file contents; paths are
  compared as strings.
* A run returns its final state together with the exception that aborted it, if
  any, so that the file operations done before a throw stay observable.
-/

namespace AfterChunkHash

/-- A JavaScript string: a list of code units. -/
abbrev Str := List Char

/-! ## Builtins of the JavaScript standard library used by the plugin -/

/-- The values that can be passed as the `length` argument of `getHash`:
`undefined`, a String, or a Number holding an integer.  A Number `num n` stands
for the Number whose value is the integer `n`; such a Number exists when
`roundToDouble` leaves the magnitude of `n` unchanged. -/
inductive JSVal where
  | undefined : JSVal
  | num (n : Int) : JSVal
  | str (s : Str) : JSVal
  deriving DecidableEq, Repr

/-- The number of binary digits of `m`, by repeated halving; `fuel` bounds the
number of steps. -/
def bitLengthAux : Nat → Nat → Nat
  | 0, _ => 0
  | fuel + 1, m => if m = 0 then 0 else bitLengthAux fuel (m / 2) + 1

/-- The number of binary digits of `m`. -/
def bitLength (m : Nat) : Nat := bitLengthAux m m

/-- The Number value of a natural number below `2 ^ 1024`: the nearest integer
with at most 53 significant binary digits, a tie going to the even
significand. -/
def roundToDouble (m : Nat) : Nat :=
  if m < 2 ^ 53 then m
  else
    let sh := bitLength m - 53
    let q := m / 2 ^ sh
    let r := m % 2 ^ sh
    let half := 2 ^ (sh - 1)
    let q2 := if half < r ∨ (r = half ∧ q % 2 = 1) then q + 1 else q
    q2 * 2 ^ sh

/-- The number of decimal digits of `x`. -/
def decimalLength (x : Nat) : Nat := (Nat.toDigits 10 x).length

/-- The search of `Number::toString` for the shortest decimal numeral that
denotes the Number `x`, which has `e` decimal digits.  For `k = 1, 2, ...`
significant digits the two multiples of `10 ^ (e - k)` next to `x` are tried;
the first whose Number value is `x` is returned, the nearer one if both are,
the one with the even last digit on a tie. -/
def shortestFrom (x e : Nat) : Nat → Nat → Nat
  | 0, _ => x
  | fuel + 1, k =>
    let scale := 10 ^ (e - k)
    let lo := x / scale * scale
    let hi := lo + scale
    if roundToDouble lo = x ∧ roundToDouble hi = x then
      if x - lo < hi - x then lo
      else if hi - x < x - lo then hi
      else if (x / scale) % 2 = 0 then lo else hi
    else if roundToDouble lo = x then lo
    else if roundToDouble hi = x then hi
    else shortestFrom x e fuel (k + 1)

/-- The integer denoted by the shortest decimal numeral of the Number `x`. -/
def shortestDecimal (x : Nat) : Nat :=
  shortestFrom x (decimalLength x) (decimalLength x) 1

/-- A digit string without its trailing zeros. -/
def stripTrailingZeros (ds : Str) : Str :=
  (ds.reverse.dropWhile (fun c => c = '0')).reverse

/-- The operation `Number::toString(x, 10)` for a Number with a non-negative
integer value.  Below `2 ^ 53` the result is the decimal numeral of `x`.  From
there on the digits are the shortest ones that denote `x`: followed by zeros
while the numeral has at most 21 digits, and in exponent notation, such as
`1e+21`, beyond. -/
def numberToString (x : Nat) : Str :=
  if x < 2 ^ 53 then Nat.toDigits 10 x
  else
    let v := shortestDecimal x
    let ds := Nat.toDigits 10 v
    if v < 10 ^ 21 then ds
    else
      let ex := Nat.toDigits 10 (ds.length - 1)
      match stripTrailingZeros ds with
      | [] => ds
      | [d] => d :: 'e' :: '+' :: ex
      | d :: rest => d :: '.' :: rest ++ 'e' :: '+' :: ex

/-- The abstract operation `ToString` on the values of `JSVal`. -/
def toStringJS : JSVal → Str
  | .undefined => "undefined".toList
  | .num n => if n < 0 then '-' :: numberToString n.natAbs else numberToString n.natAbs
  | .str s => s

/-- The code points of `StrWhiteSpaceChar` (WhiteSpace and LineTerminator). -/
def isStrWhiteSpace (c : Char) : Bool :=
  let n := c.toNat
  n = 0x9 || n = 0xA || n = 0xB || n = 0xC || n = 0xD || n = 0x20 || n = 0xA0 ||
  n = 0x1680 || (0x2000 ≤ n && n ≤ 0x200A) || n = 0x2028 || n = 0x2029 ||
  n = 0x202F || n = 0x205F || n = 0x3000 || n = 0xFEFF

/-- The value of a string of decimal digits, most significant digit first. -/
def digitsValue (z : Str) : Nat :=
  z.foldl (fun acc c => 10 * acc + (c.toNat - 48)) 0

/-- The builtin `parseInt(inputString, 10)`: leading white space is skipped, an
optional sign is read, then the longest run of decimal digits.  `none` is `NaN`.
The result is the exact integer; JavaScript rounds it to a double, which makes
no difference once the value is clamped to a string length. -/
def parseInt (inputString : Str) : Option Int :=
  let s := inputString.dropWhile isStrWhiteSpace
  let signed : Int × Str :=
    match s with
    | '-' :: r => (-1, r)
    | '+' :: r => (1, r)
    | _ => (1, s)
  let z := signed.2.takeWhile Char.isDigit
  if z = [] then none else some (signed.1 * (digitsValue z : Int))

/-- The builtin `String.prototype.substring(start, end)`. -/
def substring (s : Str) (start stop : Int) : Str :=
  let len : Int := s.length
  let finalStart := min (max start 0) len
  let finalEnd := min (max stop 0) len
  let lo := min finalStart finalEnd
  let hi := max finalStart finalEnd
  (s.drop lo.toNat).take (hi - lo).toNat

/-! ## `getHash` (plugin.js, lines 28-33) -/

/-- The method `getHash(hashString, length)`. -/
def getHash (hashString : Str) (length : JSVal) : Str :=
  match parseInt (toStringJS length) with
  | some n => substring hashString 0 n
  | none => hashString


/-- A value `v` presents the natural number `n` as a truncation length for the
string `f`: it is the Number `n`, below `10 ^ 21`, or a nonempty string of
decimal digits denoting `n` (leading zeros allowed, any number of digits).
In the first case `n` is the value of a Number; beyond the safe integers,
where JavaScript prints rounded digits, `f` has fewer than `2 ^ 53` code units,
as every JavaScript string has. -/
def IsLength (f : Str) (v : JSVal) (n : Nat) : Prop :=
  (v = .num (n : Int) ∧ n < 10 ^ 21 ∧ roundToDouble n = n ∧
      (2 ^ 53 ≤ n → f.length < 2 ^ 53)) ∨
    ∃ z : Str, v = .str z ∧ z ≠ [] ∧ (∀ c ∈ z, c.isDigit = true) ∧ digitsValue z = n

/-- Whether a string begins, after leading white space and one optional sign,
with a decimal digit. -/
def startsWithNumeral (s : Str) : Bool :=
  match s.dropWhile isStrWhiteSpace with
  | '-' :: c :: _ => c.isDigit
  | '+' :: c :: _ => c.isDigit
  | c :: _ => c.isDigit
  | [] => false

/-! ## String builtins -/

/-- The line terminators of ECMAScript, which the regular-expression atom `.`
does not match. -/
def isLineTerminator (c : Char) : Bool :=
  c.toNat = 0xA || c.toNat = 0xD || c.toNat = 0x2028 || c.toNat = 0x2029

/-- The builtin `s.split(sep)` for a one-character separator. -/
def splitOn (sep : Char) : Str → List Str
  | [] => [[]]
  | c :: cs =>
    if c = sep then [] :: splitOn sep cs
    else
      match splitOn sep cs with
      | h :: t => (c :: h) :: t
      | [] => [[c]]

/-- The builtin `parts.join(sep)`. -/
def join (sep : Str) (parts : List Str) : Str :=
  sep.intercalate parts

/-- The builtin `s.indexOf(pat)`: the first position at which `pat` occurs. -/
def indexOf (pat : Str) : Str → Option Nat
  | [] => if pat = [] then some 0 else none
  | c :: cs =>
    if pat.isPrefixOf (c :: cs) then some 0 else (indexOf pat cs).map (· + 1)

/-- The abstract operation `GetSubstitution` for a match without capture
groups: in the replacement template, `$$` is a dollar sign, `$&` the matched
text, `$` followed by a backtick the text before the match, `$` followed by an
apostrophe the text after it; every other character, `$1` and `$<` included,
stands for itself.  No pattern that the plugin replaces has a capture group.
The counter `skip` is the number of template characters already consumed. -/
def getSubstitutionAux (matched str : Str) (position : Nat) : Nat → Str → Str
  | _, [] => []
  | skip + 1, _ :: r => getSubstitutionAux matched str position skip r
  | 0, c :: r =>
    if c = '$' then
      match r with
      | [] => ['$']
      | d :: _ =>
        if d = '$' then '$' :: getSubstitutionAux matched str position 1 r
        else if d = '&' then matched ++ getSubstitutionAux matched str position 1 r
        else if d = Char.ofNat 96 then
          str.take position ++ getSubstitutionAux matched str position 1 r
        else if d = Char.ofNat 39 then
          str.drop (position + matched.length) ++ getSubstitutionAux matched str position 1 r
        else '$' :: getSubstitutionAux matched str position 0 r
    else c :: getSubstitutionAux matched str position 0 r

/-- The abstract operation `GetSubstitution(matched, str, position, «», template)`. -/
def getSubstitution (matched str : Str) (position : Nat) (template : Str) : Str :=
  getSubstitutionAux matched str position 0 template

/-- The builtin `s.replace(pat, repl)` for a string pattern: the first
occurrence of `pat` is replaced by the expansion of the template `repl`. -/
def replaceString (s pat repl : Str) : Str :=
  match indexOf pat s with
  | none => s
  | some p => s.take p ++ getSubstitution pat s p repl ++ s.drop (p + pat.length)

/-! ## `getFileType` (plugin.js, lines 9-13) -/

/-- The call `str.replace(/\?.*/, '')`: the first question mark is removed together
with everything after it up to the next line terminator. -/
def stripQuery : Str → Str
  | [] => []
  | c :: cs =>
    if c = '?' then cs.dropWhile (fun x => !isLineTerminator x) else c :: stripQuery cs

/-- The method `getFileType(str)`: the last dot-separated part of the name
without its query string. -/
def getFileType (str : Str) : Str :=
  let parts := splitOn '.' (stripQuery str)
  parts.getLastD []

/-! ## `getNewFileName` (plugin.js, lines 15-26) -/

/-- The length of the match of `/\[chunkhash(?::\d+)?]/i` anchored at the start of
`s`, if there is one: an opening bracket, the word `chunkhash` in any letter
case, optionally a colon with at least one digit, and a closing bracket. -/
def matchChunkhashToken (s : Str) : Option Nat :=
  match s with
  | '[' :: r =>
    if (r.take 9).map Char.toLower = "chunkhash".toList then
      match r.drop 9 with
      | ']' :: _ => some 11
      | ':' :: r3 =>
        let ds := r3.takeWhile Char.isDigit
        if ds ≠ [] ∧ (r3.drop ds.length).head? = some ']' then some (12 + ds.length) else none
      | _ => none
    else none
  | _ => none

/-- The first match of `/\[chunkhash(?::\d+)?]/i` in `s`: position and length. -/
def searchChunkhashToken : Str → Option (Nat × Nat)
  | [] => none
  | c :: cs =>
    match matchChunkhashToken (c :: cs) with
    | some len => some (0, len)
    | none => (searchChunkhashToken cs).map (fun pl => (pl.1 + 1, pl.2))

/-- The call `s.replace(/\[chunkhash(?::\d+)?]/i, repl)`. -/
def replaceChunkhashToken (s repl : Str) : Str :=
  match searchChunkhashToken s with
  | none => s
  | some (p, len) =>
    s.take p ++ getSubstitution ((s.drop p).take len) s p repl ++ s.drop (p + len)

/-- The method `getNewFileName(pattern, id, name, hash, ext)`.  The arguments `id`
and `name` are given by their string conversions, which is what `replace`
uses. -/
def getNewFileName (pattern id name hash ext : Str) : Str :=
  let parts := splitOn '.' pattern
  let partsWithoutExt := parts.dropLast ++ [ext]
  replaceChunkhashToken
    (replaceString (replaceString (join ".".toList partsWithoutExt) "[id]".toList id)
      "[name]".toList name)
    hash

/-- A hexadecimal digit, in either letter case. -/
def isHexChar (c : Char) : Bool :=
  c.isDigit || ('a'.toNat ≤ c.toNat && c.toNat ≤ 'f'.toNat) ||
    ('A'.toNat ≤ c.toNat && c.toNat ≤ 'F'.toNat)

/-- A fingerprint (digest): a string of hexadecimal digits. -/
def IsHex (s : Str) : Prop := ∀ c ∈ s, isHexChar c = true

instance (s : Str) : Decidable (IsHex s) := by
  unfold IsHex
  infer_instance

/-! ## Regular expressions built from strings at run time

The plugin builds regular expressions with `new RegExp(source, flags)` from file
names, chunk ids, chunk names and fingerprints.  The fragment of the pattern
language in which such sources normally fall is interpreted here: literal
characters, the wildcard `.`, the assertion `\b`, and a backslash before a
syntax character.  For a source outside the fragment (quantifiers, groups,
classes, alternation, anchors, other escapes) the engine of the host is
consulted, see `Host.regExpReplace` and `Host.regExpTest`. -/

/-- An atom of a compiled pattern. -/
inductive Atom where
  | lit (c : Char) : Atom
  | any : Atom
  | wordBoundary : Atom
  deriving DecidableEq, Repr

/-- The syntax characters of the pattern language. -/
def isSyntaxChar (c : Char) : Bool :=
  c = '^' || c = '$' || c = '\\' || c = '.' || c = '*' || c = '+' || c = '?' ||
  c = '(' || c = ')' || c = '[' || c = ']' || c = '{' || c = '}' || c = '|'

/-- The atoms of a pattern source of the fragment; `none` for any other source,
valid or not.  With the flag `i`, the literals of the fragment are restricted
to ASCII, for which case folding is the ASCII one. -/
def compileFragment (ignoreCase : Bool) : Str → Option (List Atom)
  | [] => some []
  | ['\\'] => none
  | '\\' :: d :: r =>
    if d = 'b' then (compileFragment ignoreCase r).map (fun as => Atom.wordBoundary :: as)
    else if isSyntaxChar d || d = '/' then
      (compileFragment ignoreCase r).map (fun as => Atom.lit d :: as)
    else none
  | c :: r =>
    if c = '.' then (compileFragment ignoreCase r).map (fun as => Atom.any :: as)
    else if isSyntaxChar c then none
    else if ignoreCase && decide (128 ≤ c.toNat) then none
    else (compileFragment ignoreCase r).map (fun as => Atom.lit c :: as)

/-- The word characters of `\b`: ASCII letters, digits and the underscore. -/
def isWordChar (c : Char) : Bool :=
  c.isAlphanum || c = '_'

/-- Whether the optional character is a word character; `none` stands for the
start or the end of the subject. -/
def isWordCharOpt : Option Char → Bool
  | some c => isWordChar c
  | none => false

/-- Whether the subject character `c` matches the literal `p`. -/
def charMatches (ignoreCase : Bool) (p c : Char) : Bool :=
  if ignoreCase then c.toUpper = p.toUpper else c = p

/-- Matching of a compiled pattern at one position of the subject: `prev` is the
character before the position, `rest` the subject from the position on.  The
result is the length of the match.  A pattern of the fragment has no choice
points, so there is no backtracking. -/
def matchAtoms (ignoreCase : Bool) : List Atom → Option Char → Str → Option Nat
  | [], _, _ => some 0
  | Atom.wordBoundary :: as, prev, rest =>
    if isWordCharOpt prev != isWordCharOpt rest.head? then matchAtoms ignoreCase as prev rest
    else none
  | Atom.lit p :: as, _, c :: rest =>
    if charMatches ignoreCase p c then (matchAtoms ignoreCase as (some c) rest).map (· + 1)
    else none
  | Atom.any :: as, _, c :: rest =>
    if isLineTerminator c then none
    else (matchAtoms ignoreCase as (some c) rest).map (· + 1)
  | Atom.lit _ :: _, _, [] => none
  | Atom.any :: _, _, [] => none

/-- Whether the pattern matches somewhere in the subject: the test
`subject.match(regex) !== null`. -/
def testAtoms (ignoreCase : Bool) (atoms : List Atom) : Option Char → Str → Bool
  | prev, [] => (matchAtoms ignoreCase atoms prev []).isSome
  | prev, c :: r =>
    (matchAtoms ignoreCase atoms prev (c :: r)).isSome || testAtoms ignoreCase atoms (some c) r

/-- The replacement loop of `subject.replace(regex, repl)` for a regular
expression with the flag `g`, scanning from position `pos`; `skip` counts the
characters that still belong to the last match.  After an empty match the scan
advances by one character. -/
def replaceAllAux (ignoreCase : Bool) (atoms : List Atom) (subject repl : Str) :
    Nat → Nat → Option Char → Str → Str
  | _ + 1, _, _, [] => []
  | skip + 1, pos, _, c :: r =>
    replaceAllAux ignoreCase atoms subject repl skip (pos + 1) (some c) r
  | 0, pos, prev, [] =>
    match matchAtoms ignoreCase atoms prev [] with
    | some _ => getSubstitution [] subject pos repl
    | none => []
  | 0, pos, prev, c :: r =>
    match matchAtoms ignoreCase atoms prev (c :: r) with
    | some 0 =>
      getSubstitution [] subject pos repl ++
        c :: replaceAllAux ignoreCase atoms subject repl 0 (pos + 1) (some c) r
    | some (len + 1) =>
      getSubstitution ((c :: r).take (len + 1)) subject pos repl ++
        replaceAllAux ignoreCase atoms subject repl len (pos + 1) (some c) r
    | none => c :: replaceAllAux ignoreCase atoms subject repl 0 (pos + 1) (some c) r


/-! ## Reference semantics of a global literal replacement

When the pattern source is a plain word `a` and the replacement `b` contains no
dollar sign, `subject.replace(new RegExp(a, 'g'), b)` replaces the occurrences
of `a` found by a left-to-right scan.  `replaceLiteralAux` states that scan
directly; `regExpReplaceAll` is proved equal to it for such arguments. -/

/-- Left-to-right replacement of the occurrences of the nonempty word `a` by
`b`; `skip` counts the characters that still belong to the last occurrence. -/
def replaceLiteralAux (a b : Str) : Nat → Str → Str
  | _ + 1, [] => []
  | skip + 1, _ :: r => replaceLiteralAux a b skip r
  | 0, [] => []
  | 0, c :: r =>
    if a.isPrefixOf (c :: r) then b ++ replaceLiteralAux a b (a.length - 1) r
    else c :: replaceLiteralAux a b 0 r

/-- Whether a nonempty proper suffix of `x` is a prefix of `y`. -/
def overlaps (x y : Str) : Bool :=
  (List.range x.length).any (fun k => decide (0 < k) && (x.drop k).isPrefixOf y)

/-! ## Objects used as string-keyed tables -/

/-- The property read `o[k]` on own properties; `none` when `k` is not a key. -/
def objGet {β : Type} (o : List (Str × β)) (k : Str) : Option β :=
  (o.find? (fun e => e.1 = k)).map (fun e => e.2)

/-- The test `o.hasOwnProperty(k)`. -/
def objHas {β : Type} (o : List (Str × β)) (k : Str) : Bool :=
  o.any (fun e => e.1 = k)

/-- The assignment `o[k] = v`: an existing property keeps its place, a new one
is added. -/
def objSet {β : Type} (o : List (Str × β)) (k : Str) (v : β) : List (Str × β) :=
  if objHas o k then o.map (fun e => if e.1 = k then (k, v) else e) else o ++ [(k, v)]

/-- The statement `delete o[k]`. -/
def objDelete {β : Type} (o : List (Str × β)) (k : Str) : List (Str × β) :=
  o.filter (fun e => e.1 ≠ k)

/-! ## The compilation, the host and the state of a run -/

/-- A reference to an asset source object of the compiler. -/
abbrev AssetRef := Nat

/-- The table `compilation.assets`.  A stored value can be `undefined`
(`none`), which is what reading a missing key and storing the result produces. -/
abbrev Assets := List (Str × Option AssetRef)

/-- The read `compilation.assets[k]`: `undefined` for a missing key. -/
def assetsGet (assets : Assets) (k : Str) : Option AssetRef :=
  (objGet assets k).join

/-- The parsed JSON manifest: an object whose values are strings. -/
abbrev ManifestJson := List (Str × Str)

/-- A chunk of the compilation.  The fields `id` and `name` hold the string
conversions of `chunk.id` and `chunk.name` (`undefined` for an unnamed chunk),
which is how the plugin uses them; `isEntry` is the test
`typeof chunk.entryModule !== 'undefined'`. -/
structure Chunk where
  id : Str
  name : Str
  hash : Str
  files : List Str
  isEntry : Bool
  deriving DecidableEq, Repr

/-- The builtins of the host that are not part of the repository. -/
structure Host where
  /-- The function `md5` of the package `md5`, with a hexadecimal result. -/
  md5 : Str → Str
  /-- The builtin `JSON.parse`; `none` is a `SyntaxError`. -/
  jsonParse : Str → Option ManifestJson
  /-- The builtin `JSON.stringify(value, null, 2)`; `none` is `null`. -/
  jsonStringify : Option ManifestJson → Str
  /-- The call `subject.replace(new RegExp(source, 'g'), repl)`, with the
  arguments in the order source, subject, replacement, for a source outside
  the interpreted fragment; `none` is the `SyntaxError` of an invalid source. -/
  regExpReplace : Str → Str → Str → Option Str
  /-- The test `subject.match(new RegExp(source, 'gi')) !== null`, with the
  arguments in the order source, subject, for a source outside the interpreted
  fragment; `none` is the `SyntaxError` of an invalid source. -/
  regExpTest : Str → Str → Option Bool

/-- The call `subject.replace(new RegExp(source, 'g'), repl)`: interpreted when
the source lies in the fragment, left to the engine of the host otherwise.
The result `none` is the `SyntaxError` of `new RegExp`. -/
def regExpReplaceAll (host : Host) (source subject repl : Str) : Option Str :=
  match compileFragment false source with
  | some atoms => some (replaceAllAux false atoms subject repl 0 0 none subject)
  | none => host.regExpReplace source subject repl

/-- The test `subject.match(new RegExp(source, 'gi')) !== null`: interpreted when
the source lies in the fragment, left to the engine of the host otherwise.
The result `none` is the `SyntaxError` of `new RegExp`. -/
def regExpTestIgnoreCase (host : Host) (source subject : Str) : Option Bool :=
  match compileFragment true source with
  | some atoms => some (testAtoms true atoms none subject)
  | none => host.regExpTest source subject

/-- What the plugin reads from its options and from `compilation`. -/
structure Compilation where
  /-- The option `manifestJsonName` of the plugin (default `manifest.json`). -/
  manifestJsonName : Str
  /-- The setting `compilation.options.output.path`. -/
  outputPath : Str
  /-- The setting `compilation.options.output.filename`. -/
  filename : Str
  /-- The setting `compilation.options.output.chunkFilename`. -/
  chunkFilename : Str
  /-- The list `compilation.chunks`. -/
  chunks : List Chunk

/-- A file operation that changes the output directory. -/
inductive FsOp where
  | unlink (path : Str) : FsOp
  | write (path : Str) (contents : Str) : FsOp
  deriving DecidableEq, Repr

/-- The exceptions that abort a run. -/
inductive RunError where
  /-- A property read on `null`, as in `nameParts[1]` when the template did not
  match. -/
  | typeError : RunError
  /-- The error `ENOENT` of `fs.unlinkSync` or `fs.readFileSync`. -/
  | enoent (path : Str) : RunError
  /-- A `SyntaxError` of `JSON.parse`. -/
  | jsonSyntax : RunError
  /-- The `SyntaxError` of `new RegExp` for an invalid pattern source. -/
  | regExp : RunError
  deriving DecidableEq, Repr

/-- The mutable state of a run: the files of the output directory, the asset
table, the three manifest variables of `apply`, and the log of the file
operations done so far. -/
structure State where
  files : List (Str × Str)
  assets : Assets
  manifestJs : Option Str
  manifestJsMap : Option Str
  manifestJson : Option ManifestJson
  ops : List FsOp
  deriving DecidableEq, Repr

/-- The outcome of a step: the state reached, and the exception if the step
threw. -/
structure Outcome where
  state : State
  error : Option RunError
  deriving DecidableEq, Repr

/-- Sequencing: the next step runs only if no exception was thrown. -/
def Outcome.andThen (o : Outcome) (f : State → Outcome) : Outcome :=
  match o.error with
  | some _ => o
  | none => f o.state

/-- A step that ends normally. -/
def Outcome.ok (st : State) : Outcome := ⟨st, none⟩

/-- A step that throws. -/
def Outcome.throw (st : State) (e : RunError) : Outcome := ⟨st, some e⟩

/-- The call `fs.existsSync(path)`. -/
def existsSync (st : State) (path : Str) : Bool := objHas st.files path

/-- The call `fs.unlinkSync(path)`. -/
def unlinkSync (st : State) (path : Str) : Outcome :=
  if existsSync st path then
    Outcome.ok { st with files := objDelete st.files path, ops := st.ops ++ [FsOp.unlink path] }
  else Outcome.throw st (RunError.enoent path)

/-- The call `fs.writeFileSync(path, contents)`. -/
def writeFileSync (st : State) (path contents : Str) : Outcome :=
  Outcome.ok
    { st with files := objSet st.files path contents, ops := st.ops ++ [FsOp.write path contents] }

/-- The path `outputPath + '/' + name`. -/
def pathOf (outputPath name : Str) : Str := outputPath ++ "/".toList ++ name

/-! ## `renameAsset` (plugin.js, lines 35-58) -/

/-- The two statements on the asset table (lines 56-57):
`assets[newName] = assets[oldName]` and then `delete assets[oldName]`. -/
def moveAsset (assets : Assets) (chunkOriginalName chunkNewName : Str) : Assets :=
  objDelete (objSet assets chunkNewName (assetsGet assets chunkOriginalName)) chunkOriginalName

/-- The method `renameAsset`. -/
def renameAsset (host : Host) (st : State) (outputPath chunkContents chunkFullPath
    chunkOriginalName chunkNewName chunkReferenceOriginalName chunkReferenceNewName : Str) :
    Outcome :=
  match regExpReplaceAll host chunkReferenceOriginalName chunkContents
      chunkReferenceNewName with
  | none => Outcome.throw st RunError.regExp
  | some contents =>
    (unlinkSync st chunkFullPath).andThen fun st1 =>
    (writeFileSync st1 (pathOf outputPath chunkNewName) contents).andThen fun st2 =>
    Outcome.ok { st2 with assets := moveAsset st2.assets chunkOriginalName chunkNewName }

/-! ## `findManifestJsName` (plugin.js, lines 60-74) -/

/-- The method `findManifestJsName(chunks)`; an element `none` is an `undefined`
slot of the array. -/
def findManifestJsName : List (Option Chunk) → Option Str
  | [] => none
  | none :: rest => findManifestJsName rest
  | some chunk :: rest =>
    if chunk.name ≠ "manifest".toList then findManifestJsName rest
    else
      match chunk.files.find? (fun f => !(".map".toList).isSuffixOf f) with
      | some f => some f
      | none => findManifestJsName rest

/-! ## `updateManifestJson` (plugin.js, lines 76-87) -/

/-- The method `updateManifestJson(manifestJson, searches, find, replace)`; `none`
is the `SyntaxError` of `new RegExp(find, 'g')`. -/
def updateManifestJson (host : Host) (manifestJson : ManifestJson) (searches : List Str)
    (find replace : Str) : Option ManifestJson :=
  searches.foldl
    (fun acc search =>
      acc.bind fun json =>
        match objGet json search with
        | none => some json
        | some value => (regExpReplaceAll host find value replace).map (objSet json search))
    (some manifestJson)

/-! ## `apply` (plugin.js, lines 95-278) -/

/-- The groups of a match of `nameRegex`, `/((?:chunk)?hash):?([\d]+)?/i`, anchored
at the start of `s`: group 1 is the word `chunkhash` or `hash` as written in
the subject, group 2 the digits after an optional colon, `none` if there are
no digits. -/
def matchNameRegexAt (s : Str) : Option (Str × Option Str) :=
  let word : Option Str :=
    if (s.take 9).map Char.toLower = "chunkhash".toList then some (s.take 9)
    else if (s.take 4).map Char.toLower = "hash".toList then some (s.take 4)
    else none
  word.map fun g1 =>
    let r := s.drop g1.length
    let r2 := match r with
      | ':' :: t => t
      | _ => r
    let ds := r2.takeWhile Char.isDigit
    (g1, if ds = [] then none else some ds)

/-- The call `pattern.match(nameRegex)`: the groups of the leftmost match, or
`none` for `null`. -/
def matchNameRegex : Str → Option (Str × Option Str)
  | [] => none
  | c :: cs =>
    match matchNameRegexAt (c :: cs) with
    | some m => some m
    | none => matchNameRegex cs

/-- The element `nameParts[2]` as the `length` argument of `getHash`. -/
def lengthArg : Option Str → JSVal
  | none => JSVal.undefined
  | some ds => JSVal.str ds

/-- The callback of `chunk.files.filter` (lines 139-147): both regular
expressions are built first, then the conjunction is evaluated.  The result is
`none` when `new RegExp` throws a `SyntaxError`. -/
def isCandidate (host : Host) (st : State) (outputPath : Str) (chunk : Chunk) (file : Str) :
    Option Bool :=
  match regExpTestIgnoreCase host ("\\b".toList ++ chunk.id ++ "\\b".toList) file,
      regExpTestIgnoreCase host ("\\b".toList ++ chunk.name ++ "\\b".toList) file with
  | some matchesId, some matchesName =>
    some ((".js".toList).isSuffixOf file && !("manifest".toList).isPrefixOf file &&
      (matchesId || matchesName) && existsSync st (pathOf outputPath file))
  | _, _ => none

/-- The call `chunk.files.filter(...)`: the files that reach the rename step. -/
def candidates (host : Host) (st : State) (outputPath : Str) (chunk : Chunk) :
    List Str → Option (List Str)
  | [] => some []
  | file :: rest =>
    match isCandidate host st outputPath chunk file with
    | none => none
    | some keep =>
      (candidates host st outputPath chunk rest).map (fun fs => if keep then file :: fs else fs)

/-- The new name computed for a candidate file from its contents (lines 152-162). -/
def newChunkName (host : Host) (namePattern : Str) (len : Option Str) (chunk : Chunk)
    (file contents : Str) : Str :=
  getNewFileName namePattern chunk.id chunk.name
    (getHash (host.md5 contents) (lengthArg len)) (getFileType file)

/-- The replacement in the manifest script (lines 197-200). -/
def patchManifestJs (host : Host) (manifestJs id oldHash newHash : Str) : Option Str :=
  regExpReplaceAll host (id ++ ":\"".toList ++ oldHash ++ "\"".toList) manifestJs
    (id ++ ":\"".toList ++ newHash ++ "\"".toList)

/-- The replacement in the source map of the manifest script (lines 203-206):
the quotes are preceded by a backslash there. -/
def patchManifestJsMap (host : Host) (manifestJsMap id oldHash newHash : Str) :
    Option Str :=
  regExpReplaceAll host (id ++ ":\\\\\"".toList ++ oldHash ++ "\\\\\"".toList) manifestJsMap
    (id ++ ":\\\"".toList ++ newHash ++ "\\\"".toList)

/-- The manifest patches done after a file was renamed (lines 195-218). -/
def patchManifests (host : Host) (st : State) (chunk : Chunk) (oldHash newHash : Str) :
    Outcome :=
  let afterJs : Outcome :=
    match st.manifestJs with
    | none => Outcome.ok st
    | some js =>
      match patchManifestJs host js chunk.id oldHash newHash with
      | none => Outcome.throw st RunError.regExp
      | some js2 =>
        let st1 := { st with manifestJs := some js2 }
        match st1.manifestJsMap with
        | none => Outcome.ok st1
        | some jsMap =>
          if jsMap = [] then Outcome.ok st1
          else
            match patchManifestJsMap host jsMap chunk.id oldHash newHash with
            | none => Outcome.throw st1 RunError.regExp
            | some jsMap2 => Outcome.ok { st1 with manifestJsMap := some jsMap2 }
  afterJs.andThen fun st2 =>
    match st2.manifestJson with
    | none => Outcome.ok st2
    | some json =>
      match updateManifestJson host json
          [chunk.name ++ ".js".toList, chunk.name ++ ".js.map".toList] oldHash newHash with
      | none => Outcome.throw st2 RunError.regExp
      | some json2 => Outcome.ok { st2 with manifestJson := some json2 }

/-- The callback of `forEach` over the candidate files (lines 148-219). -/
def processFile (host : Host) (outputPath namePattern : Str) (len : Option Str)
    (chunk : Chunk) (st : State) (file : Str) : Outcome :=
  let chunkFullPath := pathOf outputPath file
  let chunkMapFullPath := chunkFullPath ++ ".map".toList
  match objGet st.files chunkFullPath with
  | none => Outcome.throw st (RunError.enoent chunkFullPath)
  | some chunkContents =>
    let chunkNewHash := getHash (host.md5 chunkContents) (lengthArg len)
    let chunkOldHash := getHash chunk.hash (lengthArg len)
    let chunkName := newChunkName host namePattern len chunk file chunkContents
    if chunkName = file then Outcome.ok st
    else
      (renameAsset host st outputPath chunkContents chunkFullPath file chunkName file
        chunkName).andThen fun st1 =>
      (match objGet st1.files chunkMapFullPath with
        | none => Outcome.ok st1
        | some mapContents =>
          renameAsset host st1 outputPath mapContents chunkMapFullPath (file ++ ".map".toList)
            (chunkName ++ ".map".toList) file chunkName).andThen fun st2 =>
      patchManifests host st2 chunk chunkOldHash chunkNewHash

/-- The template that governs a chunk (line 129). -/
def namePatternOf (c : Compilation) (chunk : Chunk) : Str :=
  if chunk.isEntry then c.filename else c.chunkFilename

/-- The match of `nameRegex` in the governing template (lines 101, 104, 130);
`none` is `null`. -/
def namePartsOf (c : Compilation) (chunk : Chunk) : Option (Str × Option Str) :=
  if chunk.isEntry then matchNameRegex c.filename else matchNameRegex c.chunkFilename

/-- The callback of `compilation.chunks.forEach` (lines 127-220). -/
def processChunk (host : Host) (c : Compilation) (st : State) (chunk : Chunk) : Outcome :=
  match namePartsOf c chunk with
  | none => Outcome.throw st RunError.typeError
  | some (kind, len) =>
    if kind ≠ "chunkhash".toList then Outcome.ok st
    else
      match candidates host st c.outputPath chunk chunk.files with
      | none => Outcome.throw st RunError.regExp
      | some files =>
        files.foldl
          (fun o file => o.andThen fun s =>
            processFile host c.outputPath (namePatternOf c chunk) len chunk s file)
          (Outcome.ok st)

/-- The loop over all chunks. -/
def unitsPass (host : Host) (c : Compilation) (st : State) : Outcome :=
  c.chunks.foldl (fun o chunk => o.andThen fun s => processChunk host c s chunk) (Outcome.ok st)

/-- The reads at the start of the callback (lines 106-124). -/
def loadManifests (host : Host) (c : Compilation) (st : State) : Outcome :=
  let st1 : State :=
    match findManifestJsName (c.chunks.map some) with
    | none => st
    | some manifestJsName =>
      if manifestJsName = [] then st
      else
        match objGet st.files (pathOf c.outputPath manifestJsName) with
        | none => st
        | some js =>
          { st with
            manifestJs := some js
            manifestJsMap := objGet st.files (pathOf c.outputPath manifestJsName ++ ".map".toList) }
  match objGet st1.files (pathOf c.outputPath c.manifestJsonName) with
  | none => Outcome.ok st1
  | some text =>
    match host.jsonParse text with
    | none => Outcome.throw st1 RunError.jsonSyntax
    | some json => Outcome.ok { st1 with manifestJson := some json }

/-- The name computed for the manifest script from its patched payload
(lines 224-230); `none` stands for the `TypeError` of `chunkFilenameParts[2]`
when the chunk template did not match. -/
def newManifestName (host : Host) (c : Compilation) (manifestJs : Str) : Option Str :=
  (matchNameRegex c.chunkFilename).map fun parts =>
    getNewFileName c.chunkFilename "-1".toList "manifest".toList
      (getHash (host.md5 manifestJs) (lengthArg parts.2)) "js".toList

/-- The rename of the manifest script itself (lines 222-266). -/
def manifestPass (host : Host) (c : Compilation) (st : State) : Outcome :=
  match st.manifestJs with
  | none => Outcome.ok st
  | some manifestJs =>
    let manifestJsName := (findManifestJsName (c.chunks.map some)).getD []
    match newManifestName host c manifestJs with
    | none => Outcome.throw st RunError.typeError
    | some newName =>
      (renameAsset host st c.outputPath manifestJs (pathOf c.outputPath manifestJsName)
        manifestJsName newName manifestJsName newName).andThen fun st1 =>
      (match st1.manifestJsMap with
        | none => Outcome.ok st1
        | some manifestJsMap =>
          renameAsset host st1 c.outputPath manifestJsMap
            (pathOf c.outputPath manifestJsName ++ ".map".toList)
            (manifestJsName ++ ".map".toList) (newName ++ ".map".toList)
            manifestJsName newName).andThen fun st2 =>
      match st2.manifestJson with
      | none => Outcome.ok st2
      | some json =>
        match updateManifestJson host json ["manifest.js".toList, "manifest.js.map".toList]
            manifestJsName newName with
        | none => Outcome.throw st2 RunError.regExp
        | some json2 => Outcome.ok { st2 with manifestJson := some json2 }

/-- The final rewrite of the JSON manifest (lines 268-274). -/
def flushManifestJson (host : Host) (c : Compilation) (st : State) : Outcome :=
  (unlinkSync st (pathOf c.outputPath c.manifestJsonName)).andThen fun st1 =>
  writeFileSync st1 (pathOf c.outputPath c.manifestJsonName) (host.jsonStringify st1.manifestJson)

/-- The state at the start of the callback. -/
def initialState (files : List (Str × Str)) (assets : Assets) : State :=
  { files := files, assets := assets, manifestJs := none, manifestJsMap := none,
    manifestJson := none, ops := [] }

/-- The `after-emit` callback registered by `apply`. -/
def apply (host : Host) (c : Compilation) (files : List (Str × Str)) (assets : Assets) :
    Outcome :=
  (loadManifests host c (initialState files assets)).andThen fun st0 =>
  (unitsPass host c st0).andThen fun st1 =>
  (manifestPass host c st1).andThen fun st2 =>
  flushManifestJson host c st2

/-! ## Example builds

Concrete builds used to evaluate the callback.  The host of the examples
tabulates `md5` on the file contents that occur in them (the values are the
real digests) and the JSON builtins on the empty object.  Every pattern source
of the examples lies in the interpreted fragment, so the engine of the host
is never consulted in them (see `examples_engine_independent`); its value in
`exampleHost` is a placeholder and says nothing about other builds. -/

/-- The host of the examples. -/
def exampleHost : Host where
  md5 := fun s =>
    if s = "console.log(1)".toList then "6114f5adc373accd7b2051bd87078f62".toList
    else if s = "var installedChunks=[]".toList then "5c0a44a30dc227fe7ffa95292e79728f".toList
    else if s = "var h=\x7b5:\"6114f5ad\"\x7d".toList then
      "6301c67896445f666348e9b3c4e1b73d".toList
    else "d41d8cd98f00b204e9800998ecf8427e".toList
  jsonParse := fun s => if s = "\x7b\x7d".toList then some [] else none
  jsonStringify := fun o =>
    match o with
    | none => "null".toList
    | some _ => "\x7b\x7d".toList
  regExpReplace := fun _ _ _ => none
  regExpTest := fun _ _ => none

/-- An entry chunk `app` whose file already carries the digest of its contents. -/
def settledChunk : Chunk where
  id := "0".toList
  name := "app".toList
  hash := "abcdef1234567890".toList
  files := ["app.6114f5ad.js".toList]
  isEntry := true

/-- A build with the one chunk `settledChunk` and an empty JSON manifest. -/
def settledBuild : Compilation where
  manifestJsonName := "manifest.json".toList
  outputPath := "/dist".toList
  filename := "[name].[chunkhash:8].js".toList
  chunkFilename := "[name].[chunkhash:8].js".toList
  chunks := [settledChunk]

/-- The output directory of `settledBuild`. -/
def settledFiles : List (Str × Str) :=
  [("/dist/app.6114f5ad.js".toList, "console.log(1)".toList),
   ("/dist/manifest.json".toList, "\x7b\x7d".toList)]

/-- A manifest chunk whose script already carries the digest of its contents. -/
def settledManifestChunk : Chunk where
  id := "1".toList
  name := "manifest".toList
  hash := "0123456789abcdef".toList
  files := ["manifest.5c0a44a3.js".toList]
  isEntry := false

/-- A build whose only chunk is `settledManifestChunk`. -/
def settledManifestBuild : Compilation where
  manifestJsonName := "manifest.json".toList
  outputPath := "/dist".toList
  filename := "[name].[chunkhash:8].js".toList
  chunkFilename := "[name].[chunkhash:8].js".toList
  chunks := [settledManifestChunk]

/-- The output directory of `settledManifestBuild`. -/
def settledManifestFiles : List (Str × Str) :=
  [("/dist/manifest.5c0a44a3.js".toList, "var installedChunks=[]".toList),
   ("/dist/manifest.json".toList, "\x7b\x7d".toList)]

/-- An entry chunk `app` with the file `app.js`. -/
def plainChunk : Chunk where
  id := "0".toList
  name := "app".toList
  hash := "abcdef1234567890".toList
  files := ["app.js".toList]
  isEntry := true

/-- A build whose templates have no fingerprint placeholder. -/
def plainBuild : Compilation where
  manifestJsonName := "manifest.json".toList
  outputPath := "/dist".toList
  filename := "[name].js".toList
  chunkFilename := "[id].js".toList
  chunks := [plainChunk]

/-- The output directory of `plainBuild`. -/
def plainFiles : List (Str × Str) :=
  [("/dist/app.js".toList, "console.log(1)".toList),
   ("/dist/manifest.json".toList, "\x7b\x7d".toList)]

/-- A manifest chunk whose script lies in the directory `js`. -/
def nestedChunk : Chunk where
  id := "1".toList
  name := "manifest".toList
  hash := "abcdef1234567890".toList
  files := ["js/manifest.abcdef12.js".toList]
  isEntry := false

/-- A build whose templates have a directory part; its only chunk is
`nestedChunk`. -/
def nestedBuild : Compilation where
  manifestJsonName := "manifest.json".toList
  outputPath := "/dist".toList
  filename := "js/[name].[chunkhash:8].js".toList
  chunkFilename := "js/[name].[chunkhash:8].js".toList
  chunks := [nestedChunk]

/-- The output directory of `nestedBuild`. -/
def nestedFiles : List (Str × Str) :=
  [("/dist/js/manifest.abcdef12.js".toList, "var installedChunks=[]".toList),
   ("/dist/manifest.json".toList, "\x7b\x7d".toList)]

/-- An entry chunk `app` whose file carries the old fingerprint, not the digest
of its contents. -/
def staleChunk : Chunk where
  id := "0".toList
  name := "app".toList
  hash := "abcdef1234567890".toList
  files := ["app.abcdef12.js".toList]
  isEntry := true

/-- A build whose templates write the placeholder as `[ChunkHash:8]`. -/
def mixedCaseBuild : Compilation where
  manifestJsonName := "manifest.json".toList
  outputPath := "/dist".toList
  filename := "[name].[ChunkHash:8].js".toList
  chunkFilename := "[name].[ChunkHash:8].js".toList
  chunks := [staleChunk]

/-- The build `mixedCaseBuild` with the placeholder in lower case. -/
def lowerCaseBuild : Compilation :=
  { mixedCaseBuild with
    filename := "[name].[chunkhash:8].js".toList
    chunkFilename := "[name].[chunkhash:8].js".toList }

/-- The output directory of `mixedCaseBuild` and `lowerCaseBuild`. -/
def staleFiles : List (Str × Str) :=
  [("/dist/app.abcdef12.js".toList, "console.log(1)".toList),
   ("/dist/manifest.json".toList, "\x7b\x7d".toList)]

/-- An entry chunk `app` with the id 5, whose file carries the old fingerprint. -/
def staleChunkFive : Chunk where
  id := "5".toList
  name := "app".toList
  hash := "abcdef1234567890".toList
  files := ["app.abcdef12.js".toList]
  isEntry := true

/-- A manifest chunk whose script records the old fingerprint of chunk 5. -/
def staleManifestChunk : Chunk where
  id := "6".toList
  name := "manifest".toList
  hash := "0123456789abcdef".toList
  files := ["manifest.01234567.js".toList]
  isEntry := false

/-- A build with the chunk `staleChunkFive` and a manifest script. -/
def staleManifestBuild : Compilation where
  manifestJsonName := "manifest.json".toList
  outputPath := "/dist".toList
  filename := "[name].[chunkhash:8].js".toList
  chunkFilename := "[name].[chunkhash:8].js".toList
  chunks := [staleChunkFive, staleManifestChunk]

/-- The output directory of `staleManifestBuild`. -/
def staleManifestFiles : List (Str × Str) :=
  [("/dist/app.abcdef12.js".toList, "console.log(1)".toList),
   ("/dist/manifest.01234567.js".toList, "var h=\x7b5:\"abcdef12\"\x7d".toList),
   ("/dist/manifest.json".toList, "\x7b\x7d".toList)]

/-- The asset table of `staleManifestBuild`. -/
def staleManifestAssets : Assets :=
  [("app.abcdef12.js".toList, some 1), ("manifest.01234567.js".toList, some 2)]

/-! ## Settled builds -/

/-- Every candidate file of every chunk already has the name that the callback
computes for it from its contents, in the state `st`. -/
def AllSettled (host : Host) (c : Compilation) (st : State) : Prop :=
  ∀ chunk ∈ c.chunks, ∀ (kind : Str) (len : Option Str),
    namePartsOf c chunk = some (kind, len) → kind = "chunkhash".toList →
    ∀ files : List Str, candidates host st c.outputPath chunk chunk.files = some files →
    ∀ file ∈ files, ∀ contents : Str,
      objGet st.files (pathOf c.outputPath file) = some contents →
      newChunkName host (namePatternOf c chunk) len chunk file contents = file

/-- The host of the examples with another regular-expression engine. -/
def exampleHostWith (replaceEngine : Str → Str → Str → Option Str)
    (testEngine : Str → Str → Option Bool) : Host :=
  { exampleHost with regExpReplace := replaceEngine, regExpTest := testEngine }

theorem digitChar_spec (d : Nat) (h : d < 10) :
    (Nat.digitChar d).isDigit = true ∧ (Nat.digitChar d).toNat - 48 = d := by
  interval_cases d <;> decide

theorem digitsValue_append_singleton (r : Str) (c : Char) :
    digitsValue (r ++ [c]) = 10 * digitsValue r + (c.toNat - 48) := by
  simp [digitsValue, List.foldl_append]

theorem toDigitsCore_spec : ∀ (fuel n : Nat) (ds : Str), n < fuel →
    ∃ r : Str, Nat.toDigitsCore 10 fuel n ds = r ++ ds ∧ r ≠ [] ∧
      (∀ c ∈ r, c.isDigit = true) ∧ digitsValue r = n := by
  intro fuel
  induction fuel with
  | zero => intro n ds h; omega
  | succ fuel ih =>
    intro n ds h
    have hd := digitChar_spec (n % 10) (Nat.mod_lt _ (by decide))
    by_cases h0 : n / 10 = 0
    · refine ⟨[Nat.digitChar (n % 10)], ?_, by simp, ?_, ?_⟩
      · simp [Nat.toDigitsCore, h0]
      · intro c hc
        simp at hc
        subst hc
        exact hd.1
      · have h1 : n % 10 = n := by omega
        have h2 := hd.2
        simp only [digitsValue, List.foldl_cons, List.foldl_nil]
        omega
    · obtain ⟨r, hr, hne, hdig, hval⟩ := ih (n / 10) (Nat.digitChar (n % 10) :: ds) (by omega)
      refine ⟨r ++ [Nat.digitChar (n % 10)], ?_, by simp, ?_, ?_⟩
      · simp [Nat.toDigitsCore, h0, hr]
      · intro c hc
        rcases List.mem_append.1 hc with hc | hc
        · exact hdig c hc
        · simp at hc
          subst hc
          exact hd.1
      · rw [digitsValue_append_singleton, hval, hd.2]
        omega

theorem toDigits_spec (n : Nat) :
    Nat.toDigits 10 n ≠ [] ∧ (∀ c ∈ Nat.toDigits 10 n, c.isDigit = true) ∧
      digitsValue (Nat.toDigits 10 n) = n := by
  obtain ⟨r, hr, hne, hdig, hval⟩ := toDigitsCore_spec (n + 1) n [] (Nat.lt_succ_self n)
  have : Nat.toDigits 10 n = r := by simpa [Nat.toDigits] using hr
  rw [this]
  exact ⟨hne, hdig, hval⟩

theorem isDigit_range (c : Char) (h : c.isDigit = true) : 48 ≤ c.toNat ∧ c.toNat ≤ 57 := by
  simp only [Char.isDigit, Bool.and_eq_true, decide_eq_true_eq] at h
  exact ⟨h.1, h.2⟩

theorem isDigit_not_space (c : Char) (h : c.isDigit = true) :
    isStrWhiteSpace c = false ∧ c ≠ '-' ∧ c ≠ '+' := by
  obtain ⟨h1, h2⟩ := isDigit_range c h
  refine ⟨?_, ?_, ?_⟩
  · simp only [isStrWhiteSpace]
    simp
    omega
  · rintro rfl
    exact absurd h (by decide)
  · rintro rfl
    exact absurd h (by decide)

theorem parseInt_digits (z : Str) (hne : z ≠ []) (hd : ∀ c ∈ z, c.isDigit = true) :
    parseInt z = some (digitsValue z : Int) := by
  cases z with
  | nil => exact absurd rfl hne
  | cons a t =>
    have ha := hd a (List.mem_cons_self a t)
    obtain ⟨hs, hm, hp⟩ := isDigit_not_space a ha
    have htw : List.takeWhile Char.isDigit (a :: t) = a :: t := by
      rw [List.takeWhile_eq_self_iff]
      exact hd
    have hdw : List.dropWhile isStrWhiteSpace (a :: t) = a :: t := by
      simp [List.dropWhile, hs]
    unfold parseInt
    rw [hdw]
    have hsel : (match a :: t with
        | '-' :: r => ((-1 : Int), r)
        | '+' :: r => ((1 : Int), r)
        | _ => ((1 : Int), a :: t)) = ((1 : Int), a :: t) := by
      split
      · rename_i r heq
        exact absurd (List.cons.inj heq).1 hm
      · rename_i r heq
        exact absurd (List.cons.inj heq).1 hp
      · rfl
    simp only [hsel, htw]
    simp

theorem substring_zero (s : Str) (n : Nat) : substring s 0 (n : Int) = s.take n := by
  unfold substring
  simp only [max_self, List.drop_zero]
  have h0 : min (0 : Int) (s.length : Int) = 0 := by omega
  rw [h0]
  by_cases h : n ≤ s.length
  · have h1 : min (max (n : Int) 0) (s.length : Int) = n := by omega
    rw [h1]
    have h2 : min (0 : Int) (n : Int) = 0 := by omega
    have h3 : max (0 : Int) (n : Int) = n := by omega
    simp [h2, h3]
  · have h1 : min (max (n : Int) 0) (s.length : Int) = s.length := by omega
    rw [h1]
    have h2 : min (0 : Int) (s.length : Int) = 0 := by omega
    have h3 : max (0 : Int) (s.length : Int) = s.length := by omega
    simp [h2, h3]
    omega

/-! ### Numbers as lengths -/

theorem roundToDouble_of_lt (m : Nat) (h : m < 2 ^ 53) : roundToDouble m = m := by
  unfold roundToDouble
  rw [if_pos h]

theorem shortestFrom_spec (x e : Nat) (hx : roundToDouble x = x) :
    ∀ (fuel k : Nat), 1 ≤ k →
      roundToDouble (shortestFrom x e fuel k) = x ∧
        (shortestFrom x e fuel k ≤ x ∨
          ∃ j : Nat, j ≤ e - 1 ∧ shortestFrom x e fuel k = x / 10 ^ j * 10 ^ j + 10 ^ j) := by
  intro fuel
  induction fuel with
  | zero =>
    intro k _
    exact ⟨hx, Or.inl (Nat.le_refl x)⟩
  | succ fuel ih =>
    intro k hk
    have hlo : x / 10 ^ (e - k) * 10 ^ (e - k) ≤ x := Nat.div_mul_le_self x _
    have hj : e - k ≤ e - 1 := by omega
    unfold shortestFrom
    simp only []
    split_ifs with h1 h2 h3 h4 h5 h6
    · exact ⟨h1.1, Or.inl hlo⟩
    · exact ⟨h1.2, Or.inr ⟨e - k, hj, rfl⟩⟩
    · exact ⟨h1.1, Or.inl hlo⟩
    · exact ⟨h1.2, Or.inr ⟨e - k, hj, rfl⟩⟩
    · exact ⟨h5, Or.inl hlo⟩
    · exact ⟨h6, Or.inr ⟨e - k, hj, rfl⟩⟩
    · exact ih (k + 1) (by omega)

theorem decimalLength_le (x : Nat) (h : x < 10 ^ 21) : decimalLength x ≤ 21 := by
  unfold decimalLength Nat.toDigits
  exact Nat.toDigitsCore_length 10 (by decide) (x + 1) x 21 h (by decide)

theorem next_multiple_le (x j : Nat) (hj : j ≤ 20) (h : x < 10 ^ 21) :
    x / 10 ^ j * 10 ^ j + 10 ^ j ≤ 10 ^ 21 := by
  have hpow : (10 : Nat) ^ 21 = 10 ^ (21 - j) * 10 ^ j := by
    rw [← Nat.pow_add]
    congr 1
    omega
  have hpos : 0 < (10 : Nat) ^ j := Nat.pow_pos (by decide)
  have hdiv : x / 10 ^ j < 10 ^ (21 - j) := by
    rw [Nat.div_lt_iff_lt_mul hpos, ← hpow]
    exact h
  calc x / 10 ^ j * 10 ^ j + 10 ^ j = (x / 10 ^ j + 1) * 10 ^ j := by ring
    _ ≤ 10 ^ (21 - j) * 10 ^ j := Nat.mul_le_mul_right _ hdiv
    _ = 10 ^ 21 := hpow.symm

/-- A Number between `2 ^ 53` and `10 ^ 21` is printed as the decimal numeral of
an integer that is at least `2 ^ 53`. -/
theorem numberToString_mid (x : Nat) (hx : roundToDouble x = x) (h1 : 2 ^ 53 ≤ x)
    (h2 : x < 10 ^ 21) :
    ∃ v : Nat, numberToString x = Nat.toDigits 10 v ∧ 2 ^ 53 ≤ v := by
  obtain ⟨hr, hv⟩ := shortestFrom_spec x (decimalLength x) hx (decimalLength x) 1 (Nat.le_refl 1)
  have hlt : shortestDecimal x < 10 ^ 21 := by
    unfold shortestDecimal
    rcases hv with hle | ⟨j, hj, hval⟩
    · exact Nat.lt_of_le_of_lt hle h2
    · have he := decimalLength_le x h2
      have hle := next_multiple_le x j (by omega) h2
      rw [← hval] at hle
      rcases Nat.lt_or_eq_of_le hle with hlt | heq
      · exact hlt
      · exfalso
        rw [heq] at hr
        have : roundToDouble (10 ^ 21) = 10 ^ 21 := by decide
        omega
  have hge : 2 ^ 53 ≤ shortestDecimal x := by
    by_contra hcon
    have hsmall : shortestDecimal x < 2 ^ 53 := Nat.lt_of_not_le hcon
    have := roundToDouble_of_lt _ hsmall
    unfold shortestDecimal at this hsmall
    omega
  refine ⟨shortestDecimal x, ?_, hge⟩
  unfold numberToString
  rw [if_neg (Nat.not_lt.2 h1)]
  simp only [hlt, if_true]

theorem toStringJS_num (n : Nat) : toStringJS (.num (n : Int)) = numberToString n := by
  have h : ¬ ((n : Int) < 0) := by omega
  simp only [toStringJS, h, if_false, Int.natAbs_ofNat]

/-- C8, as stated, fails: `10 ^ 21` is a non-negative integer and the value of
a Number, which JavaScript prints as `1e+21`; `parseInt` reads it as 1, so
`getHash` keeps one character of a fingerprint of 16, not the whole of it. -/
theorem getHash_number_counterexample :
    roundToDouble (10 ^ 21) = 10 ^ 21 ∧
      toStringJS (.num (10 ^ 21)) = "1e+21".toList ∧
      getHash "abcdef1234567890".toList (.num (10 ^ 21)) = "a".toList ∧
      getHash "abcdef1234567890".toList (.num (10 ^ 21))
        ≠ "abcdef1234567890".toList.take (10 ^ 21) ∧
      (getHash "abcdef1234567890".toList (.num (10 ^ 21))).length
        ≠ min (10 ^ 21) "abcdef1234567890".toList.length := by
  refine ⟨by decide, by decide, by decide, by decide, by decide⟩

/-- C8, amended. For a fingerprint `f` and a valid length `n`, given as a Number
below `10 ^ 21` or as a string of decimal digits, `getHash f n` is the prefix of
`f` made of its first `n` characters, and its length is `min n (length f)`. -/
theorem getHash_valid_length (f : Str) (v : JSVal) (n : Nat) (h : IsLength f v n) :
    getHash f v = f.take n ∧ (getHash f v).length = min n f.length := by
  have hg : getHash f v = f.take n := by
    rcases h with ⟨rfl, hlt, hnum, hlen⟩ | ⟨z, rfl, hne, hd, hval⟩
    · by_cases hsafe : n < 2 ^ 53
      · obtain ⟨h1, h2, h3⟩ := toDigits_spec n
        have hs : toStringJS (.num (n : Int)) = Nat.toDigits 10 n := by
          rw [toStringJS_num]
          unfold numberToString
          rw [if_pos hsafe]
        unfold getHash
        rw [hs, parseInt_digits _ h1 h2, h3]
        exact substring_zero f n
      · have hbig : 2 ^ 53 ≤ n := Nat.le_of_not_lt hsafe
        obtain ⟨w, hw, hwbig⟩ := numberToString_mid n hnum hbig hlt
        obtain ⟨h1, h2, h3⟩ := toDigits_spec w
        have hf := hlen hbig
        unfold getHash
        rw [toStringJS_num, hw, parseInt_digits _ h1 h2, h3]
        simp only []
        rw [substring_zero f w, List.take_of_length_le (by omega),
          List.take_of_length_le (by omega)]
    · unfold getHash
      simp only [toStringJS]
      rw [parseInt_digits z hne hd, hval]
      exact substring_zero f n
  exact ⟨hg, by rw [hg, List.length_take]⟩

/-- C8, amended, at the length `"8"` of the template `[chunkhash:8]`, at the
Number 8, and at the Number `2 ^ 60`, which JavaScript prints with rounded
digits. -/
theorem getHash_valid_length_witness :
    IsLength "11223344aabbccdd".toList (.str "8".toList) 8 ∧
      getHash "11223344aabbccdd".toList (.str "8".toList) = "11223344".toList ∧
      IsLength "11223344aabbccdd".toList (.num 8) 8 ∧
      getHash "11223344aabbccdd".toList (.num 8) = "11223344".toList ∧
      IsLength "11223344aabbccdd".toList (.num (2 ^ 60 : Nat)) (2 ^ 60) ∧
      getHash "11223344aabbccdd".toList (.num (2 ^ 60 : Nat))
        = "11223344aabbccdd".toList.take (2 ^ 60) := by
  have h : IsLength "11223344aabbccdd".toList (.str "8".toList) 8 :=
    Or.inr ⟨"8".toList, rfl, by decide, by decide, by decide⟩
  have h2 : IsLength "11223344aabbccdd".toList (.num 8) 8 :=
    Or.inl ⟨rfl, by decide, by decide, fun hbig => absurd hbig (by decide)⟩
  have h3 : IsLength "11223344aabbccdd".toList (.num (2 ^ 60 : Nat)) (2 ^ 60) :=
    Or.inl ⟨rfl, by decide, by decide, fun _ => by decide⟩
  exact ⟨h, (getHash_valid_length "11223344aabbccdd".toList _ 8 h).1,
    h2, (getHash_valid_length "11223344aabbccdd".toList _ 8 h2).1,
    h3, (getHash_valid_length "11223344aabbccdd".toList _ (2 ^ 60) h3).1⟩

theorem takeWhile_isDigit_nil (t : Str) (h : ∀ c r, t = c :: r → c.isDigit = false) :
    t.takeWhile Char.isDigit = [] := by
  cases t with
  | nil => rfl
  | cons c r => simp [List.takeWhile, h c r rfl]

theorem parseInt_none_of_not_numeral (s : Str) (h : startsWithNumeral s = false) :
    parseInt s = none := by
  unfold parseInt
  unfold startsWithNumeral at h
  generalize s.dropWhile isStrWhiteSpace = t at h
  have key : ∀ (sg : Int) (u : Str), (∀ c r, u = c :: r → c.isDigit = false) →
      (if u.takeWhile Char.isDigit = [] then (none : Option Int)
        else some (sg * (digitsValue (u.takeWhile Char.isDigit) : Int))) = none := by
    intro sg u hu
    rw [takeWhile_isDigit_nil u hu]
    rfl
  rcases t with _ | ⟨c, r⟩
  · exact key 1 [] (by intro c1 r1 h1; cases h1)
  · by_cases hm : c = '-'
    · subst hm
      rcases r with _ | ⟨c2, r2⟩
      · exact key (-1) [] (by intro c1 r1 h1; cases h1)
      · exact key (-1) (c2 :: r2) (by intro c1 r1 h1; cases h1; exact h)
    · by_cases hp : c = '+'
      · subst hp
        rcases r with _ | ⟨c2, r2⟩
        · exact key 1 [] (by intro c1 r1 h1; cases h1)
        · exact key 1 (c2 :: r2) (by intro c1 r1 h1; cases h1; exact h)
      · have hc : c.isDigit = false := by
          split at h
          · rename_i heq
            exact absurd (List.cons.inj heq).1 hm
          · rename_i heq
            exact absurd (List.cons.inj heq).1 hp
          · rename_i heq
            cases heq
            exact h
          · rename_i heq
            cases heq
        have hsel : (match c :: r with
            | '-' :: r1 => ((-1 : Int), r1)
            | '+' :: r1 => ((1 : Int), r1)
            | _ => ((1 : Int), c :: r)) = ((1 : Int), c :: r) := by
          split
          · rename_i r1 heq
            exact absurd (List.cons.inj heq).1 hm
          · rename_i r1 heq
            exact absurd (List.cons.inj heq).1 hp
          · rfl
        simp only [hsel]
        exact key 1 _ (by intro c1 r1 h1; cases h1; exact hc)

/-- C9, as stated, fails: the length `"8abc"` truncates the fingerprint to its
first 8 characters and the negative length `-3` yields the empty string, so
neither returns the fingerprint unchanged. -/
theorem getHash_unparsed_length_counterexample :
    getHash "abcdef1234567890".toList (.str "8abc".toList) = "abcdef12".toList ∧
      getHash "abcdef1234567890".toList (.str "8abc".toList) ≠ "abcdef1234567890".toList ∧
      getHash "abcdef1234567890".toList (.num (-3)) = [] ∧
      getHash "abcdef1234567890".toList (.num (-3)) ≠ "abcdef1234567890".toList := by
  decide

/-- C9, amended. When the length is `undefined`, or a string that does not
begin (after leading white space and an optional sign) with a decimal digit,
such as `"abc"`, `getHash` returns the fingerprint unchanged. -/
theorem getHash_no_numeral (f : Str) (v : JSVal)
    (h : v = .undefined ∨ ∃ s : Str, v = .str s ∧ startsWithNumeral s = false) :
    getHash f v = f := by
  have key : parseInt (toStringJS v) = none := by
    rcases h with rfl | ⟨s, rfl, hs⟩
    · decide
    · exact parseInt_none_of_not_numeral s hs
  unfold getHash
  rw [key]

/-- C9, amended, at the length `"abc"`. -/
theorem getHash_no_numeral_witness :
    startsWithNumeral "abc".toList = false ∧
      getHash "abcdef1234567890".toList (.str "abc".toList) = "abcdef1234567890".toList :=
  ⟨by decide, getHash_no_numeral _ _ (Or.inr ⟨"abc".toList, rfl, by decide⟩)⟩

/-! ### Facts about the string builtins -/

theorem getSubstitutionAux_literal (matched str : Str) (position : Nat) (t : Str)
    (h : '$' ∉ t) : getSubstitutionAux matched str position 0 t = t := by
  induction t with
  | nil => rfl
  | cons c r ih =>
    have hc : c ≠ '$' := fun e => h (e ▸ List.mem_cons_self _ _)
    have hr : '$' ∉ r := fun e => h (List.mem_cons_of_mem _ e)
    simp [getSubstitutionAux, hc, ih hr]

theorem getSubstitution_literal (matched str : Str) (position : Nat) (t : Str)
    (h : '$' ∉ t) : getSubstitution matched str position t = t :=
  getSubstitutionAux_literal matched str position t h

theorem stripQuery_of_no_query (s : Str) (h : '?' ∉ s) : stripQuery s = s := by
  induction s with
  | nil => rfl
  | cons c r ih =>
    have hc : c ≠ '?' := fun e => h (e ▸ List.mem_cons_self _ _)
    have hr : '?' ∉ r := fun e => h (List.mem_cons_of_mem _ e)
    simp [stripQuery, hc, ih hr]

theorem splitOn_ne_nil (sep : Char) (s : Str) : splitOn sep s ≠ [] := by
  cases s with
  | nil => simp [splitOn]
  | cons c r =>
    unfold splitOn
    split
    · simp
    · split <;> simp

theorem splitOn_append_sep (sep : Char) (b t : Str) :
    splitOn sep (b ++ sep :: t) = splitOn sep b ++ splitOn sep t := by
  induction b with
  | nil => simp [splitOn]
  | cons c r ih =>
    by_cases hc : c = sep
    · simp [splitOn, hc, ih]
    · obtain ⟨h, tl, hsp⟩ := List.exists_cons_of_ne_nil (splitOn_ne_nil sep r)
      simp [splitOn, hc, ih, hsp]

theorem getFileType_js (file : Str) (hs : ".js".toList <:+ file) (hq : '?' ∉ file) :
    getFileType file = "js".toList := by
  obtain ⟨b, rfl⟩ := hs
  unfold getFileType
  rw [stripQuery_of_no_query _ hq]
  have : b ++ ".js".toList = b ++ '.' :: "js".toList := rfl
  rw [this, splitOn_append_sep]
  have h2 : splitOn '.' "js".toList = ["js".toList] := by decide
  rw [h2]
  simp

theorem matchChunkhashToken_none (c : Char) (s : Str) (h : c ≠ '[') :
    matchChunkhashToken (c :: s) = none := by
  unfold matchChunkhashToken
  split
  · rename_i heq
    exact absurd (List.cons.inj heq).1 h
  · rfl

theorem searchChunkhashToken_append (n r : Str) (h : '[' ∉ n) :
    searchChunkhashToken (n ++ r) =
      (searchChunkhashToken r).map (fun pl => (pl.1 + n.length, pl.2)) := by
  induction n with
  | nil => simp
  | cons c t ih =>
    have hc : c ≠ '[' := fun e => h (e ▸ List.mem_cons_self _ _)
    have ht : '[' ∉ t := fun e => h (List.mem_cons_of_mem _ e)
    have e := ih ht
    rw [List.cons_append, searchChunkhashToken, matchChunkhashToken_none c _ hc, e]
    cases searchChunkhashToken r <;> simp [Nat.add_assoc]

theorem isHexChar_ne_dollar (c : Char) (h : isHexChar c = true) : c ≠ '$' := by
  rintro rfl
  exact absurd h (by decide)

/-- C2, as stated, fails: a candidate file can end in `.js` and still carry a
question mark, and then `getFileType` does not return `js`.  The file `app?.js`
passes the filter of the chunk `app`, and its computed name is
`app.11223344.app`. -/
theorem getNewFileName_scenario_counterexample :
    ".js".toList <:+ "app?.js".toList ∧
      isCandidate exampleHost (initialState [("/dist/app?.js".toList, "console.log(1)".toList)] [])
          "/dist".toList staleChunk "app?.js".toList = some true ∧
      getNewFileName "[name].[chunkhash:8].js".toList "0".toList "app".toList
          (getHash "11223344aabbccdd".toList (.str "8".toList)) (getFileType "app?.js".toList)
        = "app.11223344.app".toList ∧
      getNewFileName "[name].[chunkhash:8].js".toList "0".toList "app".toList
          (getHash "11223344aabbccdd".toList (.str "8".toList)) (getFileType "app?.js".toList)
        ≠ "app".toList ++ ".".toList ++ "11223344aabbccdd".toList.take 8 ++ ".js".toList := by
  refine ⟨⟨"app?".toList, by decide⟩, by decide, by decide, by decide⟩

/-- C2, amended. For the template `[name].[chunkhash:8].js`, every unit id,
every unit name without `[` and `$`, every hexadecimal digest `d` and every
file that ends in `.js` and contains no question mark, the new file name is
the unit name, a dot, the first 8 characters of `d`, and `.js`. -/
theorem getNewFileName_scenario (id name d file : Str)
    (hname : '[' ∉ name ∧ '$' ∉ name) (hd : IsHex d)
    (hfile : ".js".toList <:+ file) (hq : '?' ∉ file) :
    getNewFileName "[name].[chunkhash:8].js".toList id name
        (getHash d (.str "8".toList)) (getFileType file)
      = name ++ ".".toList ++ d.take 8 ++ ".js".toList := by
  have hhash : getHash d (.str "8".toList) = d.take 8 := by
    have hp : parseInt (toStringJS (.str "8".toList)) = some ((8 : Nat) : Int) := by decide
    unfold getHash
    rw [hp]
    exact substring_zero d 8
  have hdollar : '$' ∉ d.take 8 := fun hm =>
    isHexChar_ne_dollar _ (hd _ (List.mem_of_mem_take hm)) rfl
  rw [hhash, getFileType_js file hfile hq]
  unfold getNewFileName
  have h1 : join ".".toList ((splitOn '.' "[name].[chunkhash:8].js".toList).dropLast ++
      ["js".toList]) = "[name].[chunkhash:8].js".toList := by decide
  have h2 : indexOf "[id]".toList "[name].[chunkhash:8].js".toList = none := by decide
  have h3 : indexOf "[name]".toList "[name].[chunkhash:8].js".toList = some 0 := by decide
  have h4 : replaceString (replaceString "[name].[chunkhash:8].js".toList "[id]".toList id)
      "[name]".toList name = name ++ ".[chunkhash:8].js".toList := by
    have e1 : replaceString "[name].[chunkhash:8].js".toList "[id]".toList id
        = "[name].[chunkhash:8].js".toList := by
      unfold replaceString
      rw [h2]
    rw [e1]
    unfold replaceString
    rw [h3]
    simp only [List.take_zero, List.nil_append, Nat.zero_add]
    rw [getSubstitution_literal _ _ _ _ hname.2]
    rfl
  simp only [h1, h4]
  unfold replaceChunkhashToken
  rw [searchChunkhashToken_append name _ hname.1]
  have h5 : searchChunkhashToken ".[chunkhash:8].js".toList = some (1, 13) := by decide
  rw [h5]
  simp only [Option.map_some']
  rw [getSubstitution_literal _ _ _ _ hdollar]
  have h6 : List.take (1 + name.length) (name ++ ".[chunkhash:8].js".toList)
      = name ++ ".".toList := by
    rw [List.take_append_eq_append_take]
    have e : 1 + name.length - name.length = 1 := by omega
    rw [List.take_of_length_le (by omega), e]
    rfl
  have h7 : List.drop (1 + name.length + 13) (name ++ ".[chunkhash:8].js".toList)
      = ".js".toList := by
    rw [List.drop_append_eq_append_drop]
    rw [List.drop_of_length_le (by omega)]
    have : 1 + name.length + 13 - name.length = 14 := by omega
    rw [this]
    rfl
  rw [h6, h7]

/-- C2, amended, at the unit `app` and the file `app.abcdef12.js`. -/
theorem getNewFileName_scenario_witness :
    ('[' ∉ "app".toList ∧ '$' ∉ "app".toList) ∧ IsHex "11223344aabbccdd".toList ∧
      getNewFileName "[name].[chunkhash:8].js".toList "7".toList "app".toList
          (getHash "11223344aabbccdd".toList (.str "8".toList))
          (getFileType "app.abcdef12.js".toList)
        = "app.11223344.js".toList :=
  ⟨by decide, by decide,
    getNewFileName_scenario "7".toList "app".toList "11223344aabbccdd".toList
      "app.abcdef12.js".toList (by decide) (by decide) ⟨"app.abcdef12".toList, by decide⟩
      (by decide)⟩

/-! ### Global replacement of a literal word -/

theorem compileFragment_literal (src : Str) (h : ∀ c ∈ src, isSyntaxChar c = false) :
    compileFragment false src = some (src.map Atom.lit) := by
  induction src with
  | nil => rfl
  | cons c r ih =>
    have hc : isSyntaxChar c = false := h c (List.mem_cons_self _ _)
    have hr := ih (fun x hx => h x (List.mem_cons_of_mem _ hx))
    have hb : c ≠ '\\' := by
      rintro rfl
      exact absurd hc (by decide)
    have hdot : c ≠ '.' := by
      rintro rfl
      exact absurd hc (by decide)
    unfold compileFragment
    split
    · simp at *
    · rename_i heq
      exact absurd (List.cons.inj heq).1 hb
    · rename_i heq
      exact absurd (List.cons.inj heq).1 hb
    · rename_i c2 r2 _ _ heq
      obtain ⟨rfl, rfl⟩ := List.cons.inj heq
      simp [hdot, hc, hr]

theorem matchAtoms_literal (a : Str) : ∀ (prev : Option Char) (rest : Str),
    matchAtoms false (a.map Atom.lit) prev rest
      = if a.isPrefixOf rest then some a.length else none := by
  induction a with
  | nil => intro prev rest; simp [matchAtoms]
  | cons p t ih =>
    intro prev rest
    cases rest with
    | nil => simp [matchAtoms, List.isPrefixOf]
    | cons c r =>
      simp only [List.map_cons, matchAtoms, charMatches, List.isPrefixOf, ih]
      by_cases hpc : c = p
      · subst hpc
        by_cases ht : t.isPrefixOf r <;> simp [ht]
      · have hpc2 : ¬ p = c := fun e => hpc e.symm
        simp [hpc, hpc2]

theorem replaceAllAux_literal (a b subject : Str) (ha : a ≠ []) (hb : '$' ∉ b) :
    ∀ (s : Str) (skip pos : Nat) (prev : Option Char),
      replaceAllAux false (a.map Atom.lit) subject b skip pos prev s
        = replaceLiteralAux a b skip s := by
  intro s
  induction s with
  | nil =>
    intro skip pos prev
    cases skip with
    | zero =>
      have : a.isPrefixOf ([] : Str) = false := by
        cases a with
        | nil => exact absurd rfl ha
        | cons x t => rfl
      simp [replaceAllAux, replaceLiteralAux, matchAtoms_literal, this]
    | succ k => simp [replaceAllAux, replaceLiteralAux]
  | cons c r ih =>
    intro skip pos prev
    cases skip with
    | succ k => simp [replaceAllAux, replaceLiteralAux, ih]
    | zero =>
      obtain ⟨n, hn⟩ : ∃ n, a.length = n + 1 := by
        cases a with
        | nil => exact absurd rfl ha
        | cons x t => exact ⟨t.length, rfl⟩
      simp only [replaceAllAux, replaceLiteralAux, matchAtoms_literal, hn]
      by_cases hp : a.isPrefixOf (c :: r)
      · simp only [hp, if_true, getSubstitution_literal _ _ _ _ hb, ih]
        simp
      · simp only [hp, ih]
        simp

theorem regExpReplaceAll_literal (host : Host) (a b subject : Str) (ha : a ≠ [])
    (hs : ∀ c ∈ a, isSyntaxChar c = false) (hb : '$' ∉ b) :
    regExpReplaceAll host a subject b = some (replaceLiteralAux a b 0 subject) := by
  unfold regExpReplaceAll
  rw [compileFragment_literal a hs]
  simp [replaceAllAux_literal a b subject ha hb]

theorem overlaps_of_split (x y u v w : Str) (hu : u ≠ []) (hv : v ≠ [])
    (hx : x = u ++ v) (hy : y = v ++ w) : overlaps x y = true := by
  unfold overlaps
  rw [List.any_eq_true]
  refine ⟨u.length, ?_, ?_⟩
  · rw [List.mem_range, hx, List.length_append]
    have : 0 < v.length := List.length_pos.2 hv
    omega
  · have h0 : 0 < u.length := List.length_pos.2 hu
    have hd : List.drop u.length x = v := by
      rw [hx]
      exact List.drop_left u v
    have hp : v.isPrefixOf y = true := by
      rw [hy]
      exact List.isPrefixOf_iff_prefix.2 (List.prefix_append v w)
    simp [h0, hd, hp]

theorem infix_of_infix_append (a b t : Str) (hlen : a.length = b.length) (hne : a ≠ b)
    (ho : overlaps b a = false) (h : a <:+: b ++ t) : a <:+: t := by
  obtain ⟨p, q, hpq⟩ := h
  rw [List.append_assoc] at hpq
  rcases List.append_eq_append_iff.1 hpq with ⟨m, hb, hm⟩ | ⟨m, _, ht⟩
  · rcases List.append_eq_append_iff.1 hm with ⟨x, hmx, _⟩ | ⟨x, hax, htx⟩
    · exfalso
      have hl : b.length = p.length + (a.length + x.length) := by
        rw [hb, hmx]
        simp
      have hp : p = [] := List.eq_nil_of_length_eq_zero (by omega)
      have hx : x = [] := List.eq_nil_of_length_eq_zero (by omega)
      subst hp
      subst hx
      exact hne (by simpa [hmx] using hb.symm)
    · by_cases hm0 : m = []
      · subst hm0
        simp at hax
        subst hax
        exact ⟨[], q, by simp [htx]⟩
      · exfalso
        by_cases hp : p = []
        · subst hp
          simp at hb
          subst hb
          have hl : a.length = b.length + x.length := by
            rw [hax]
            simp
          have hx : x = [] := List.eq_nil_of_length_eq_zero (by omega)
          subst hx
          exact hne (by simpa using hax)
        · have := overlaps_of_split b a p m x hp hm0 hb hax
          rw [ho] at this
          exact Bool.noConfusion this
  · exact ⟨m, q, by simp [ht]⟩

theorem replaceLiteralAux_zero_cons (a b : Str) (c : Char) (r : Str) :
    replaceLiteralAux a b 0 (c :: r)
      = if a.isPrefixOf (c :: r) then b ++ replaceLiteralAux a b (a.length - 1) r
        else c :: replaceLiteralAux a b 0 r := by
  simp [replaceLiteralAux]

theorem not_prefix_pending (a b : Str) (hlen : a.length = b.length)
    (ho : overlaps a b = false) :
    ∀ (r u : Str), u ≠ [] →
      (∀ p q : Str, u = p ++ q → q ≠ [] → a.isPrefixOf (q ++ r) = false) →
      ¬ a <+: u ++ replaceLiteralAux a b 0 r := by
  intro r
  induction r with
  | nil =>
    intro u hu hfree hpre
    have h1 := hfree [] u rfl hu
    have h2 : a.isPrefixOf (u ++ []) = true := by
      rw [ List.isPrefixOf_iff_prefix]
      simpa [replaceLiteralAux] using hpre
    rw [h1] at h2
    exact Bool.noConfusion h2
  | cons c r ih =>
    intro u hu hfree hpre
    rw [replaceLiteralAux_zero_cons] at hpre
    by_cases hm : a.isPrefixOf (c :: r) = true
    · rw [if_pos hm] at hpre
      obtain ⟨x, hx⟩ := hpre
      rcases List.append_eq_append_iff.1 hx with ⟨m, hum, _⟩ | ⟨m, ham, hbm⟩
      · have h1 := hfree [] u rfl hu
        have h2 : a.isPrefixOf (u ++ c :: r) = true := by
          rw [ List.isPrefixOf_iff_prefix, hum]
          exact ⟨m ++ c :: r, by simp⟩
        rw [h1] at h2
        exact Bool.noConfusion h2
      · by_cases hm0 : m = []
        · subst hm0
          simp at ham
          have h1 := hfree [] u rfl hu
          have h2 : a.isPrefixOf (u ++ c :: r) = true := by
            rw [ List.isPrefixOf_iff_prefix, ham]
            exact List.prefix_append _ _
          rw [h1] at h2
          exact Bool.noConfusion h2
        · have hml : m.length < b.length := by
            have : a.length = u.length + m.length := by
              rw [ham]
              simp
            have : 0 < u.length := List.length_pos.2 hu
            omega
          have hmb : m <+: b := by
            have hmp : m <+: b ++ replaceLiteralAux a b (a.length - 1) r := ⟨x, hbm.symm⟩
            exact List.prefix_of_prefix_length_le hmp (List.prefix_append _ _) (by omega)
          obtain ⟨w, hw⟩ := hmb
          have := overlaps_of_split a b u m w hu hm0 ham hw.symm
          rw [ho] at this
          exact Bool.noConfusion this
    · rw [if_neg hm] at hpre
      have hm2 : a.isPrefixOf (c :: r) = false := Bool.eq_false_iff.2 hm
      refine ih (u ++ [c]) (by simp) ?_ (by simpa using hpre)
      intro p q hpq hq
      rcases List.eq_nil_or_concat q with hq0 | ⟨q2, d, hq2⟩
      · exact absurd hq0 hq
      · subst hq2
        have hsplit : u = p ++ q2 ∧ c = d := by
          have : u ++ [c] = (p ++ q2) ++ [d] := by simpa using hpq
          exact ⟨List.append_inj_left' this rfl, by
            have := List.append_inj_right' this rfl
            simpa using this⟩
        obtain ⟨hu2, rfl⟩ := hsplit
        by_cases hq20 : q2 = []
        · subst hq20
          simpa using hm2
        · have := hfree p q2 hu2 hq20
          simpa using this

theorem replaceLiteralAux_free (a b : Str) (hlen : a.length = b.length) (hne : a ≠ b)
    (hab : overlaps a b = false) (hba : overlaps b a = false) :
    ∀ (s : Str) (skip : Nat), ¬ a <:+: replaceLiteralAux a b skip s := by
  have hane : a ≠ [] := by
    rintro rfl
    exact hne (List.eq_nil_of_length_eq_zero (by simpa using hlen.symm)).symm
  intro s
  induction s with
  | nil =>
    intro skip h
    have : replaceLiteralAux a b skip [] = [] := by
      cases skip <;> rfl
    rw [this] at h
    exact hane (List.eq_nil_of_infix_nil h)
  | cons c r ih =>
    intro skip h
    cases skip with
    | succ k => exact ih k (by simpa [replaceLiteralAux] using h)
    | zero =>
      rw [replaceLiteralAux_zero_cons] at h
      by_cases hm : a.isPrefixOf (c :: r) = true
      · rw [if_pos hm] at h
        exact ih _ (infix_of_infix_append a b _ hlen hne hba h)
      · rw [if_neg hm] at h
        have hm2 : a.isPrefixOf (c :: r) = false := Bool.eq_false_iff.2 hm
        rcases List.infix_cons_iff.1 h with hp | hi
        · refine not_prefix_pending a b hlen hab r [c] (by simp) ?_ (by simpa using hp)
          intro p q hpq hq
          have hq1 : q = [c] := by
            rcases p with _ | ⟨x, p2⟩
            · simpa using hpq.symm
            · exfalso
              have hl : ([c] : Str).length = ((x :: p2) ++ q).length :=
                congrArg List.length hpq
              simp only [List.length_cons, List.length_append, List.length_nil] at hl
              have : 0 < q.length := List.length_pos.2 hq
              omega
          subst hq1
          simpa using hm2
        · exact ih 0 hi

theorem replaceLiteralAux_occurs (a b : Str) (hane : a ≠ []) :
    ∀ (s : Str) (skip : Nat), a <:+: s.drop skip → b <:+: replaceLiteralAux a b skip s := by
  intro s
  induction s with
  | nil =>
    intro skip h
    exact absurd (List.eq_nil_of_infix_nil (by simpa using h)) hane
  | cons c r ih =>
    intro skip h
    cases skip with
    | succ k => simpa [replaceLiteralAux] using ih k (by simpa using h)
    | zero =>
      rw [replaceLiteralAux_zero_cons]
      by_cases hm : a.isPrefixOf (c :: r) = true
      · rw [if_pos hm]
        exact List.infix_append' [] b _
      · rw [if_neg hm]
        rcases List.infix_cons_iff.1 (by simpa using h) with hp | hi
        · exact absurd (List.isPrefixOf_iff_prefix.2 hp) hm
        · exact List.infix_cons (ih 0 (by simpa using hi))

theorem split_of_overlaps (x y : Str) (h : overlaps x y = true) :
    ∃ u v w : Str, u ≠ [] ∧ v ≠ [] ∧ x = u ++ v ∧ y = v ++ w := by
  unfold overlaps at h
  rw [List.any_eq_true] at h
  obtain ⟨k, hk, hkp⟩ := h
  rw [List.mem_range] at hk
  rw [Bool.and_eq_true, decide_eq_true_eq] at hkp
  obtain ⟨hk0, hpre⟩ := hkp
  obtain ⟨w, hw⟩ := List.isPrefixOf_iff_prefix.1 hpre
  refine ⟨x.take k, x.drop k, w, ?_, ?_, (List.take_append_drop k x).symm, hw.symm⟩
  · intro e
    have hl := congrArg List.length e
    rw [List.length_take, List.length_nil] at hl
    omega
  · intro e
    have hl := congrArg List.length e
    rw [List.length_drop, List.length_nil] at hl
    omega

theorem append_cons_unique (c : Char) : ∀ (a1 a2 r1 r2 : Str), c ∉ a1 → c ∉ a2 →
    a1 ++ c :: r1 = a2 ++ c :: r2 → a1 = a2 := by
  intro a1
  induction a1 with
  | nil =>
    intro a2 r1 r2 _ h2 h
    cases a2 with
    | nil => rfl
    | cons x t =>
      exfalso
      have hx : c = x := (List.cons.inj h).1
      exact h2 (hx ▸ List.mem_cons_self _ _)
  | cons y t ih =>
    intro a2 r1 r2 h1 h2 h
    cases a2 with
    | nil =>
      exfalso
      have hy : y = c := (List.cons.inj h).1
      exact h1 (hy ▸ List.mem_cons_self _ _)
    | cons x t2 =>
      obtain ⟨hxy, ht⟩ := List.cons.inj h
      rw [hxy, ih t2 r1 r2 (fun m => h1 (List.mem_cons_of_mem _ m))
        (fun m => h2 (List.mem_cons_of_mem _ m)) ht]

/-- Two associations `id:"x"` and `id:"y"` never overlap: no nonempty proper
suffix of the first is a prefix of the second. -/
theorem assoc_overlaps_false (i x y : Str) (hi1 : ':' ∉ i) (hi2 : '"' ∉ i)
    (hx : ':' ∉ x) :
    overlaps (i ++ ":\"".toList ++ x ++ "\"".toList) (i ++ ":\"".toList ++ y ++ "\"".toList)
      = false := by
  rw [Bool.eq_false_iff]
  intro h
  obtain ⟨u, v, w, hu, hv, hX, hY⟩ := split_of_overlaps _ _ h
  have hX2 : u ++ v = (i ++ [':']) ++ ('"' :: x ++ ['"']) := by
    rw [← hX]
    simp
  have hY2 : v ++ w = i ++ ':' :: ('"' :: y ++ ['"']) := by
    rw [← hY]
    simp
  -- the head of the second association is not a quote
  have hhead : ∀ t : Str, v ≠ '"' :: t := by
    intro t e
    rw [e] at hY2
    cases i with
    | nil => exact absurd (List.cons.inj hY2).1 (by decide)
    | cons a i2 =>
      have : '"' = a := (List.cons.inj hY2).1
      exact hi2 (this ▸ List.mem_cons_self _ _)
  rcases List.append_eq_append_iff.1 hX2 with ⟨m, hm, hvm⟩ | ⟨m, hum, hT⟩
  · -- the overlap starts inside `id:`
    rcases List.eq_nil_or_concat m with hm0 | ⟨m2, d, hm2⟩
    · subst hm0
      exact hhead _ (by simpa using hvm)
    · subst hm2
      have hsplit : i = u ++ m2 ∧ d = ':' := by
        have e : i ++ [':'] = (u ++ m2) ++ [d] := by simpa using hm
        exact ⟨List.append_inj_left' e rfl, by
          have := List.append_inj_right' e rfl
          simpa using this.symm⟩
      obtain ⟨hiu, rfl⟩ := hsplit
      have hm2i : ':' ∉ m2 := fun hmem => hi1 (hiu ▸ List.mem_append_right _ hmem)
      have e2 : m2 ++ ':' :: ('"' :: x ++ ['"'] ++ w) = i ++ ':' :: ('"' :: y ++ ['"']) := by
        rw [← hY2, hvm]
        simp
      have := append_cons_unique ':' m2 i _ _ hm2i hi1 e2
      rw [this] at hiu
      have hl := congrArg List.length hiu
      rw [List.length_append] at hl
      exact hu (List.eq_nil_of_length_eq_zero (by omega))
  · -- the overlap starts inside `"x"`
    have hvcolon : ':' ∉ v := by
      intro hmem
      have hT2 : ':' ∈ '"' :: x ++ ['"'] := by
        rw [hT]
        exact List.mem_append_right _ hmem
      rcases List.mem_append.1 hT2 with h1 | h1
      · rcases List.mem_cons.1 h1 with h2 | h2
        · exact absurd h2 (by decide)
        · exact hx h2
      · exact absurd (List.mem_singleton.1 h1) (by decide)
    have hvquote : '"' ∈ v := by
      rcases List.eq_nil_or_concat v with hv0 | ⟨v2, d, hv2⟩
      · exact absurd hv0 hv
      · rw [List.concat_eq_append] at hv2
        subst hv2
        have e : ('"' :: x) ++ ['"'] = (m ++ v2) ++ [d] := by
          rw [List.append_assoc, ← hT]
        have hd : ['"'] = [d] := List.append_inj_right' e rfl
        have hd2 : '"' = d := by simpa using hd
        rw [hd2]
        simp
    rcases List.append_eq_append_iff.1 hY2 with ⟨m3, hi3, _⟩ | ⟨m3, hv3, hc3⟩
    · exact hi2 (hi3 ▸ List.mem_append_left _ hvquote)
    · cases m3 with
      | nil =>
        simp at hv3
        exact hi2 (hv3 ▸ hvquote)
      | cons z m4 =>
        have hz : ':' = z := (List.cons.inj hc3).1
        apply hvcolon
        rw [hv3, ← hz]
        simp

theorem isHexChar_facts (c : Char) (h : isHexChar c = true) :
    isSyntaxChar c = false ∧ c ≠ ':' ∧ c ≠ '"' := by
  have hr : (48 ≤ c.toNat ∧ c.toNat ≤ 57) ∨ (97 ≤ c.toNat ∧ c.toNat ≤ 102) ∨
      (65 ≤ c.toNat ∧ c.toNat ≤ 70) := by
    simp only [isHexChar, Char.isDigit, Bool.or_eq_true, Bool.and_eq_true,
      decide_eq_true_eq] at h
    rcases h with (h | h) | h
    · exact Or.inl ⟨h.1, h.2⟩
    · exact Or.inr (Or.inl ⟨h.1, h.2⟩)
    · exact Or.inr (Or.inr ⟨h.1, h.2⟩)
  have key : ∀ d : Char, (d.toNat < 48 ∨ (57 < d.toNat ∧ d.toNat < 65) ∨
      (70 < d.toNat ∧ d.toNat < 97) ∨ 102 < d.toNat) → c ≠ d := by
    intro d hd e
    subst e
    omega
  refine ⟨?_, key _ (by decide), key _ (by decide)⟩
  simp only [isSyntaxChar, Bool.or_eq_false_iff, decide_eq_false_iff_not]
  refine ⟨⟨⟨⟨⟨⟨⟨⟨⟨⟨⟨⟨⟨?_, ?_⟩, ?_⟩, ?_⟩, ?_⟩, ?_⟩, ?_⟩, ?_⟩, ?_⟩, ?_⟩, ?_⟩, ?_⟩, ?_⟩, ?_⟩ <;>
    exact key _ (by decide)

theorem isHexChar_of_isDigit (c : Char) (h : c.isDigit = true) : isHexChar c = true := by
  simp [isHexChar, h]

theorem assoc_literal (i x : Str) (hi : ∀ c ∈ i, c.isDigit = true) (hx : IsHex x) :
    (∀ c ∈ i ++ ":\"".toList ++ x ++ "\"".toList, isSyntaxChar c = false) ∧
      '$' ∉ i ++ ":\"".toList ++ x ++ "\"".toList ∧
      ':' ∉ i ∧ '"' ∉ i ∧ ':' ∉ x := by
  have hih : ∀ c ∈ i, isHexChar c = true := fun c hc => isHexChar_of_isDigit c (hi c hc)
  have hall : ∀ c ∈ i ++ ":\"".toList ++ x ++ "\"".toList,
      isSyntaxChar c = false ∧ c ≠ '$' := by
    intro c hc
    rcases List.mem_append.1 hc with hc | hc
    · rcases List.mem_append.1 hc with hc | hc
      · rcases List.mem_append.1 hc with hc | hc
        · exact ⟨(isHexChar_facts c (hih c hc)).1, isHexChar_ne_dollar c (hih c hc)⟩
        · have : c = ':' ∨ c = '"' := by simpa using hc
          rcases this with rfl | rfl <;> exact ⟨by decide, by decide⟩
      · exact ⟨(isHexChar_facts c (hx c hc)).1, isHexChar_ne_dollar c (hx c hc)⟩
    · have : c = '"' := by simpa using hc
      subst this
      exact ⟨by decide, by decide⟩
  refine ⟨fun c hc => (hall c hc).1, fun hm => (hall _ hm).2 rfl, ?_, ?_, ?_⟩
  · exact fun hm => (isHexChar_facts _ (hih _ hm)).2.1 rfl
  · exact fun hm => (isHexChar_facts _ (hih _ hm)).2.2 rfl
  · exact fun hm => (isHexChar_facts _ (hx _ hm)).2.1 rfl

theorem assoc_injective (i x y : Str)
    (h : i ++ ":\"".toList ++ x ++ "\"".toList = i ++ ":\"".toList ++ y ++ "\"".toList) :
    x = y := by
  have h1 := List.append_cancel_right h
  exact List.append_cancel_left h1

theorem patchManifests_manifestJs (host : Host) (st : State) (chunk : Chunk) (oldHash newHash js js2 : Str)
    (hjs : st.manifestJs = some js)
    (hp : patchManifestJs host js chunk.id oldHash newHash = some js2) :
    (patchManifests host st chunk oldHash newHash).state.manifestJs = some js2 := by
  unfold patchManifests
  simp only [hjs, hp]
  cases hmap : st.manifestJsMap with
  | none =>
    simp only [Outcome.andThen, Outcome.ok]
    cases st.manifestJson with
    | none => rfl
    | some json =>
      simp only []
      cases updateManifestJson host json
        [chunk.name ++ ".js".toList, chunk.name ++ ".js.map".toList] oldHash newHash <;> rfl
  | some jsMap =>
    simp only []
    by_cases hm : jsMap = []
    · simp only [hm, if_true, Outcome.andThen, Outcome.ok]
      cases st.manifestJson with
      | none => rfl
      | some json =>
        simp only []
        cases updateManifestJson host json
          [chunk.name ++ ".js".toList, chunk.name ++ ".js.map".toList] oldHash newHash <;> rfl
    · simp only [hm, if_false]
      cases patchManifestJsMap host jsMap chunk.id oldHash newHash with
      | none => rfl
      | some jsMap2 =>
        simp only [Outcome.andThen, Outcome.ok]
        cases st.manifestJson with
        | none => rfl
        | some json =>
          simp only []
          cases updateManifestJson host json
            [chunk.name ++ ".js".toList, chunk.name ++ ".js.map".toList] oldHash newHash <;> rfl

/-! ### The JSON manifest -/

theorem objGet_cons {β : Type} (e : Str × β) (t : List (Str × β)) (k : Str) :
    objGet (e :: t) k = if e.1 = k then some e.2 else objGet t k := by
  unfold objGet
  rw [List.find?_cons]
  by_cases he : e.1 = k
  · rw [if_pos he, decide_eq_true he]
    rfl
  · rw [if_neg he, decide_eq_false he]

theorem objHas_cons {β : Type} (e : Str × β) (t : List (Str × β)) (k : Str) :
    objHas (e :: t) k = (decide (e.1 = k) || objHas t k) := by
  unfold objHas
  rw [List.any_cons]

theorem objGet_append_of_not_has {β : Type} (o : List (Str × β)) (k : Str) (v : β)
    (h : objHas o k = false) : objGet (o ++ [(k, v)]) k = some v := by
  induction o with
  | nil =>
    rw [List.nil_append, objGet_cons, if_pos rfl]
  | cons e t ih =>
    rw [objHas_cons, Bool.or_eq_false_iff] at h
    have he : ¬ e.1 = k := of_decide_eq_false h.1
    rw [List.cons_append, objGet_cons, if_neg he]
    exact ih h.2

theorem objGet_map_set {β : Type} (o : List (Str × β)) (k : Str) (v : β)
    (h : objHas o k = true) :
    objGet (o.map (fun e => if e.1 = k then (k, v) else e)) k = some v := by
  induction o with
  | nil => exact absurd h (by simp [objHas])
  | cons e t ih =>
    rw [List.map_cons, objGet_cons]
    by_cases he : e.1 = k
    · rw [if_pos he, if_pos rfl]
    · rw [if_neg he, if_neg he]
      rw [objHas_cons, decide_eq_false he, Bool.false_or] at h
      exact ih h

theorem objGet_objSet_same {β : Type} (o : List (Str × β)) (k : Str) (v : β) :
    objGet (objSet o k v) k = some v := by
  unfold objSet
  by_cases h : objHas o k = true
  · rw [if_pos h]
    exact objGet_map_set o k v h
  · rw [if_neg h]
    exact objGet_append_of_not_has o k v (Bool.eq_false_iff.2 h)

theorem objGet_map_other {β : Type} (o : List (Str × β)) (k k2 : Str) (v : β)
    (hk : k2 ≠ k) :
    objGet (o.map (fun e => if e.1 = k then (k, v) else e)) k2 = objGet o k2 := by
  induction o with
  | nil => rfl
  | cons e t ih =>
    rw [List.map_cons, objGet_cons, objGet_cons, ih]
    by_cases he : e.1 = k
    · have he2 : ¬ e.1 = k2 := fun e2 => hk (e2.symm.trans he)
      have hk2 : ¬ k = k2 := fun e2 => hk e2.symm
      rw [if_pos he, if_neg hk2, if_neg he2]
    · rw [if_neg he]

theorem objGet_append_other {β : Type} (o : List (Str × β)) (k k2 : Str) (v : β)
    (hk : k2 ≠ k) : objGet (o ++ [(k, v)]) k2 = objGet o k2 := by
  induction o with
  | nil =>
    have hk2 : ¬ k = k2 := fun e2 => hk e2.symm
    rw [List.nil_append, objGet_cons, if_neg hk2]
  | cons e t ih =>
    rw [List.cons_append, objGet_cons, objGet_cons, ih]

theorem objGet_objSet_other {β : Type} (o : List (Str × β)) (k k2 : Str) (v : β)
    (hk : k2 ≠ k) : objGet (objSet o k v) k2 = objGet o k2 := by
  unfold objSet
  by_cases h : objHas o k = true
  · rw [if_pos h]
    exact objGet_map_other o k k2 v hk
  · rw [if_neg h]
    exact objGet_append_other o k k2 v hk

theorem isHex_literal (x : Str) (hx : IsHex x) :
    (∀ c ∈ x, isSyntaxChar c = false) ∧ '$' ∉ x :=
  ⟨fun c hc => (isHexChar_facts c (hx c hc)).1, fun hm => isHexChar_ne_dollar _ (hx _ hm) rfl⟩

/-- C7, as stated, fails: replacing every occurrence of the old fingerprint can
create a new one.  With the old fingerprint `12121212`, the new one `21212121`
and the entry `app112121212.js`, the updated entry is `app121212121.js`, which
still contains `12121212`. -/
theorem updateManifestJson_counterexample :
    objGet [("app1.js".toList, "app112121212.js".toList)] ("app1".toList ++ ".js".toList)
        = some "app112121212.js".toList ∧
      "12121212".toList <:+: "app112121212.js".toList ∧
      IsHex "12121212".toList ∧ IsHex "21212121".toList ∧
      "12121212".toList.length = "21212121".toList.length ∧
      "12121212".toList ≠ "21212121".toList ∧
      updateManifestJson exampleHost [("app1.js".toList, "app112121212.js".toList)]
          ["app1".toList ++ ".js".toList, "app1".toList ++ ".js.map".toList]
          "12121212".toList "21212121".toList
        = some [("app1.js".toList, "app121212121.js".toList)] ∧
      "12121212".toList <:+: "app121212121.js".toList := by
  refine ⟨by decide, ⟨"app1".toList, ".js".toList, by decide⟩, by decide, by decide,
    by decide, by decide, by decide, ⟨"app".toList, "1.js".toList, by decide⟩⟩

/-- C7, amended. When the JSON manifest has the key `name.js` with a value that
contains the old fingerprint, and the old and new fingerprints are hexadecimal
strings of equal length that differ, `updateManifestJson` succeeds and the
value under `name.js` becomes the old value with the occurrences of the old
fingerprint, found from left to right, replaced by the new one.  That value
contains the new fingerprint; it contains no occurrence of the old one
provided no nonempty proper suffix of either fingerprint is a prefix of the
other. -/
theorem updateManifestJson_entry (host : Host) (manifestJson : ManifestJson) (name old new value : Str)
    (hkey : objGet manifestJson (name ++ ".js".toList) = some value)
    (hocc : old <:+: value) (hold : IsHex old) (hnew : IsHex new)
    (hlen : old.length = new.length) (hne : old ≠ new) :
    ∃ json2 : ManifestJson,
      updateManifestJson host manifestJson
          [name ++ ".js".toList, name ++ ".js.map".toList] old new = some json2 ∧
      objGet json2 (name ++ ".js".toList) = some (replaceLiteralAux old new 0 value) ∧
      new <:+: replaceLiteralAux old new 0 value ∧
      (overlaps old new = false → overlaps new old = false →
        ¬ old <:+: replaceLiteralAux old new 0 value) := by
  have hone : old ≠ [] := by
    rintro rfl
    exact hne (List.eq_nil_of_length_eq_zero (by simpa using hlen.symm)).symm
  have hrep : ∀ subject : Str,
      regExpReplaceAll host old subject new = some (replaceLiteralAux old new 0 subject) :=
    fun subject =>
      regExpReplaceAll_literal host old new subject hone (isHex_literal old hold).1
        (isHex_literal new hnew).2
  have hkeys : name ++ ".js".toList ≠ name ++ ".js.map".toList := by
    intro e
    have := List.append_cancel_left e
    exact absurd this (by decide)
  have hget1 : objGet (objSet manifestJson (name ++ ".js".toList)
      (replaceLiteralAux old new 0 value)) (name ++ ".js".toList)
      = some (replaceLiteralAux old new 0 value) := objGet_objSet_same _ _ _
  have hup : ∃ json2 : ManifestJson,
      updateManifestJson host manifestJson
          [name ++ ".js".toList, name ++ ".js.map".toList] old new = some json2 ∧
      objGet json2 (name ++ ".js".toList) = some (replaceLiteralAux old new 0 value) := by
    unfold updateManifestJson
    simp only [List.foldl_cons, List.foldl_nil, Option.some_bind, hkey, hrep, Option.map_some']
    cases hmap : objGet (objSet manifestJson (name ++ ".js".toList)
        (replaceLiteralAux old new 0 value)) (name ++ ".js.map".toList) with
    | none => exact ⟨_, rfl, hget1⟩
    | some mapValue =>
      refine ⟨_, rfl, ?_⟩
      rw [objGet_objSet_other _ _ _ _ hkeys]
      exact hget1
  obtain ⟨json2, h1, h2⟩ := hup
  refine ⟨json2, h1, h2, ?_, ?_⟩
  · exact replaceLiteralAux_occurs old new hone value 0 (by simpa using hocc)
  · intro hab hba
    exact replaceLiteralAux_free old new hlen hne hab hba value 0

/-- C7, amended, at the entry `app.js` with the value `app.abcdef12.js`. -/
theorem updateManifestJson_entry_witness :
    ∃ json2 : ManifestJson,
      updateManifestJson exampleHost [("app.js".toList, "app.abcdef12.js".toList)]
          ["app".toList ++ ".js".toList, "app".toList ++ ".js.map".toList]
          "abcdef12".toList "11223344".toList = some json2 ∧
      objGet json2 ("app".toList ++ ".js".toList)
        = some (replaceLiteralAux "abcdef12".toList "11223344".toList 0
            "app.abcdef12.js".toList) ∧
      ¬ "abcdef12".toList <:+: replaceLiteralAux "abcdef12".toList "11223344".toList 0
            "app.abcdef12.js".toList := by
  obtain ⟨json2, h1, h2, _, h4⟩ :=
    updateManifestJson_entry exampleHost [("app.js".toList, "app.abcdef12.js".toList)] "app".toList
      "abcdef12".toList "11223344".toList "app.abcdef12.js".toList (by decide)
      ⟨"app.".toList, ".js".toList, by decide⟩ (by decide) (by decide) (by decide) (by decide)
  exact ⟨json2, h1, h2, h4 (by decide) (by decide)⟩

/-! ### The asset table -/

theorem objHas_iff_objGet {β : Type} (o : List (Str × β)) (k : Str) :
    objHas o k = (objGet o k).isSome := by
  induction o with
  | nil => rfl
  | cons e t ih =>
    rw [objHas_cons, objGet_cons, ih]
    by_cases he : e.1 = k
    · rw [if_pos he, decide_eq_true he]
      rfl
    · rw [if_neg he, decide_eq_false he, Bool.false_or]

theorem objGet_objDelete_same {β : Type} (o : List (Str × β)) (k : Str) :
    objGet (objDelete o k) k = none := by
  induction o with
  | nil => rfl
  | cons e t ih =>
    unfold objDelete
    rw [List.filter_cons]
    by_cases he : e.1 = k
    · have : decide (e.1 ≠ k) = false := decide_eq_false (fun h => h he)
      rw [this]
      exact ih
    · have : decide (e.1 ≠ k) = true := decide_eq_true he
      rw [this, if_pos rfl, objGet_cons, if_neg he]
      exact ih

theorem objGet_objDelete_other {β : Type} (o : List (Str × β)) (k k2 : Str) (hk : k2 ≠ k) :
    objGet (objDelete o k) k2 = objGet o k2 := by
  induction o with
  | nil => rfl
  | cons e t ih =>
    unfold objDelete
    rw [List.filter_cons]
    by_cases he : e.1 = k
    · have : decide (e.1 ≠ k) = false := decide_eq_false (fun h => h he)
      have he2 : ¬ e.1 = k2 := fun e2 => hk (e2.symm.trans he)
      rw [this, objGet_cons, if_neg he2]
      exact ih
    · have : decide (e.1 ≠ k) = true := decide_eq_true he
      rw [this, if_pos rfl, objGet_cons, objGet_cons]
      unfold objDelete at ih
      rw [ih]

/-- When the two names differ, `moveAsset` moves the entry: the new name maps to
the value that was stored under the old name, the old name is no longer a
key, and every other key keeps its value. -/
theorem moveAsset_of_ne (assets : Assets) (oldName newName : Str) (hne : oldName ≠ newName) :
    objGet (moveAsset assets oldName newName) newName = some (assetsGet assets oldName) ∧
      objGet (moveAsset assets oldName newName) oldName = none ∧
      ∀ k : Str, k ≠ oldName → k ≠ newName →
        objGet (moveAsset assets oldName newName) k = objGet assets k := by
  unfold moveAsset
  refine ⟨?_, objGet_objDelete_same _ _, ?_⟩
  · rw [objGet_objDelete_other _ _ _ (fun e => hne e.symm), objGet_objSet_same]
  · intro k h1 h2
    rw [objGet_objDelete_other _ _ _ h1, objGet_objSet_other _ _ _ _ h2]

/-- A call of `renameAsset` that does not throw changes the asset table by
`moveAsset` and nothing else in it. -/
theorem renameAsset_assets (host : Host) (st : State) (outputPath contents fullPath oldName newName
    refOld refNew : Str)
    (h : (renameAsset host st outputPath contents fullPath oldName newName refOld refNew).error
      = none) :
    (renameAsset host st outputPath contents fullPath oldName newName refOld refNew).state.assets
      = moveAsset st.assets oldName newName := by
  unfold renameAsset at h ⊢
  cases hr : regExpReplaceAll host refOld contents refNew with
  | none =>
    rw [hr] at h
    exact Option.noConfusion h
  | some patched =>
    rw [hr] at h
    simp only [] at h ⊢
    unfold unlinkSync at h ⊢
    by_cases hex : existsSync st fullPath = true
    · rw [if_pos hex]
      rfl
    · rw [if_neg hex] at h
      exact Option.noConfusion h

/-- C1, failing input. In the build `settledManifestBuild` the manifest script
already carries the digest of its contents, so the self-rename of the manifest
calls `renameAsset` with equal old and new names.  The table then loses the
entry of the manifest script, although the file is still in the output
directory under that name.  The rename of a chunk file is guarded against
equal names; the rename of the manifest is not. -/
theorem renameAsset_same_name_drops_entry :
    newManifestName exampleHost settledManifestBuild "var installedChunks=[]".toList
        = some "manifest.5c0a44a3.js".toList ∧
      moveAsset [("manifest.5c0a44a3.js".toList, some 1)] "manifest.5c0a44a3.js".toList
        "manifest.5c0a44a3.js".toList = [] ∧
      (apply exampleHost settledManifestBuild settledManifestFiles
        [("manifest.5c0a44a3.js".toList, some 1)]).error = none ∧
      (apply exampleHost settledManifestBuild settledManifestFiles
        [("manifest.5c0a44a3.js".toList, some 1)]).state.assets = [] ∧
      objGet (apply exampleHost settledManifestBuild settledManifestFiles
        [("manifest.5c0a44a3.js".toList, some 1)]).state.files
        "/dist/manifest.5c0a44a3.js".toList = some "var installedChunks=[]".toList := by
  refine ⟨by decide, by decide, by decide, by decide, by decide⟩

/-! ### The passes of the callback -/

theorem foldl_andThen_state {α : Type} (f : State → α → Outcome) (st : State) :
    ∀ (l : List α) (o : Outcome), o.state = st → (∀ x ∈ l, (f st x).state = st) →
      (l.foldl (fun o x => o.andThen fun s => f s x) o).state = st := by
  intro l
  induction l with
  | nil => intro o ho _; exact ho
  | cons x t ih =>
    intro o ho hf
    rw [List.foldl_cons]
    apply ih
    · unfold Outcome.andThen
      cases he : o.error with
      | some e => exact ho
      | none =>
        simp only []
        rw [ho]
        exact hf x (List.mem_cons_self _ _)
    · exact fun y hy => hf y (List.mem_cons_of_mem _ hy)

/-- A chunk whose governing template matched `nameRegex` with a first group
other than `chunkhash` is skipped: the state is unchanged and nothing is
thrown. -/
theorem processChunk_skip (host : Host) (c : Compilation) (st : State) (chunk : Chunk)
    (kind : Str) (len : Option Str) (hparts : namePartsOf c chunk = some (kind, len))
    (hkind : kind ≠ "chunkhash".toList) :
    processChunk host c st chunk = Outcome.ok st := by
  unfold processChunk
  rw [hparts]
  simp only [hkind, ne_eq, not_false_eq_true, if_true]

theorem processChunk_settled (host : Host) (c : Compilation) (st : State) (chunk : Chunk)
    (h : ∀ (kind : Str) (len : Option Str),
      namePartsOf c chunk = some (kind, len) → kind = "chunkhash".toList →
      ∀ files : List Str, candidates host st c.outputPath chunk chunk.files = some files →
      ∀ file ∈ files, ∀ contents : Str,
        objGet st.files (pathOf c.outputPath file) = some contents →
        newChunkName host (namePatternOf c chunk) len chunk file contents = file) :
    (processChunk host c st chunk).state = st := by
  unfold processChunk
  cases hparts : namePartsOf c chunk with
  | none => rfl
  | some parts =>
    obtain ⟨kind, len⟩ := parts
    simp only []
    by_cases hkind : kind = "chunkhash".toList
    · rw [if_neg (fun hn => hn hkind)]
      cases hcand : candidates host st c.outputPath chunk chunk.files with
      | none => rfl
      | some files =>
        simp only []
        apply foldl_andThen_state
          (fun s file => processFile host c.outputPath (namePatternOf c chunk) len chunk s file)
        · rfl
        · intro file hfile
          cases hget : objGet st.files (pathOf c.outputPath file) with
          | none =>
            simp only [processFile, hget]
            rfl
          | some contents =>
            have hname := h kind len hparts hkind files hcand file hfile contents hget
            simp only [processFile, hget, hname, if_true]
            rfl
    · rw [if_pos hkind]
      rfl

theorem unitsPass_settled (host : Host) (c : Compilation) (st : State)
    (h : AllSettled host c st) : (unitsPass host c st).state = st := by
  unfold unitsPass
  apply foldl_andThen_state (fun s chunk => processChunk host c s chunk)
  · rfl
  · intro chunk hchunk
    exact processChunk_settled host c st chunk (h chunk hchunk)

theorem loadManifests_ops (host : Host) (c : Compilation) (st : State) :
    (loadManifests host c st).state.ops = st.ops := by
  unfold loadManifests
  have h1 : ∀ st1 : State, st1.ops = st.ops →
      (match objGet st1.files (pathOf c.outputPath c.manifestJsonName) with
        | none => Outcome.ok st1
        | some text =>
          match host.jsonParse text with
          | none => Outcome.throw st1 RunError.jsonSyntax
          | some json => Outcome.ok { st1 with manifestJson := some json }).state.ops
        = st.ops := by
    intro st1 hst1
    cases objGet st1.files (pathOf c.outputPath c.manifestJsonName) with
    | none => exact hst1
    | some text =>
      simp only []
      cases host.jsonParse text with
      | none => exact hst1
      | some json => exact hst1
  apply h1
  cases findManifestJsName (c.chunks.map some) with
  | none => rfl
  | some name =>
    simp only []
    by_cases hn : name = []
    · rw [if_pos hn]
    · rw [if_neg hn]
      cases objGet st.files (pathOf c.outputPath name) <;> rfl

theorem settledBuild_allSettled :
    AllSettled exampleHost settledBuild
      (loadManifests exampleHost settledBuild
        (initialState settledFiles [("app.6114f5ad.js".toList, some 1)])).state := by
  intro chunk hchunk kind len hparts _ files hcand file hfile contents hget
  have hc : chunk = settledChunk := List.mem_singleton.1 hchunk
  subst hc
  have h1 : namePartsOf settledBuild settledChunk
      = some ("chunkhash".toList, some "8".toList) := by decide
  rw [h1] at hparts
  obtain ⟨_, rfl⟩ := Prod.mk.inj (Option.some.inj hparts)
  have h2 : candidates exampleHost (loadManifests exampleHost settledBuild
      (initialState settledFiles [("app.6114f5ad.js".toList, some 1)])).state
      settledBuild.outputPath settledChunk settledChunk.files
      = some ["app.6114f5ad.js".toList] := by decide
  rw [h2] at hcand
  have hf := Option.some.inj hcand
  subst hf
  have hfile2 : file = "app.6114f5ad.js".toList := List.mem_singleton.1 hfile
  subst hfile2
  have h3 : objGet (loadManifests exampleHost settledBuild
      (initialState settledFiles [("app.6114f5ad.js".toList, some 1)])).state.files
      (pathOf settledBuild.outputPath "app.6114f5ad.js".toList)
      = some "console.log(1)".toList := by decide
  rw [h3] at hget
  have hcont := Option.some.inj hget
  subst hcont
  decide

/-- C3, as stated, fails: in the build `settledBuild` every candidate file
already has its computed name, and the run still deletes and rewrites the JSON
manifest file. -/
theorem settled_run_counterexample :
    AllSettled exampleHost settledBuild
        (loadManifests exampleHost settledBuild
          (initialState settledFiles [("app.6114f5ad.js".toList, some 1)])).state ∧
      (apply exampleHost settledBuild settledFiles
          [("app.6114f5ad.js".toList, some 1)]).state.ops
        = [FsOp.unlink "/dist/manifest.json".toList,
            FsOp.write "/dist/manifest.json".toList "\x7b\x7d".toList] ∧
      (apply exampleHost settledBuild settledFiles
          [("app.6114f5ad.js".toList, some 1)]).state.ops ≠ [] :=
  ⟨settledBuild_allSettled, by decide, by decide⟩

theorem loadManifests_files (host : Host) (c : Compilation) (st : State) :
    (loadManifests host c st).state.files = st.files ∧
      (loadManifests host c st).state.assets = st.assets := by
  unfold loadManifests
  have h1 : ∀ st1 : State, (st1.files = st.files ∧ st1.assets = st.assets) →
      ((match objGet st1.files (pathOf c.outputPath c.manifestJsonName) with
        | none => Outcome.ok st1
        | some text =>
          match host.jsonParse text with
          | none => Outcome.throw st1 RunError.jsonSyntax
          | some json => Outcome.ok { st1 with manifestJson := some json }).state.files
        = st.files ∧
      (match objGet st1.files (pathOf c.outputPath c.manifestJsonName) with
        | none => Outcome.ok st1
        | some text =>
          match host.jsonParse text with
          | none => Outcome.throw st1 RunError.jsonSyntax
          | some json => Outcome.ok { st1 with manifestJson := some json }).state.assets
        = st.assets) := by
    intro st1 hst1
    cases objGet st1.files (pathOf c.outputPath c.manifestJsonName) with
    | none => exact hst1
    | some text =>
      simp only []
      cases host.jsonParse text with
      | none => exact hst1
      | some json => exact hst1
  apply h1
  cases findManifestJsName (c.chunks.map some) with
  | none => exact ⟨rfl, rfl⟩
  | some name =>
    simp only []
    by_cases hn : name = []
    · rw [if_pos hn]
      exact ⟨rfl, rfl⟩
    · rw [if_neg hn]
      cases objGet st.files (pathOf c.outputPath name) <;> exact ⟨rfl, rfl⟩

/-- C3, amended. When every candidate file already has its computed name, the
loop over the chunks performs no file operation and leaves the files, the
asset table and the loaded manifests as they were, whether or not it throws.
The run as a whole is not free of file operations: when the JSON manifest file
is present and no manifest script is loaded, a run that does not throw
performs exactly two, the deletion and the rewriting of the JSON manifest
file, which leave every other file and the asset table as they were; a run
that throws performs none. -/
theorem settled_run (host : Host) (c : Compilation) (files : List (Str × Str))
    (assets : Assets)
    (h : AllSettled host c (loadManifests host c (initialState files assets)).state) :
    (unitsPass host c (loadManifests host c (initialState files assets)).state).state
        = (loadManifests host c (initialState files assets)).state ∧
      ((loadManifests host c (initialState files assets)).state.manifestJs = none →
        objHas files (pathOf c.outputPath c.manifestJsonName) = true →
        (apply host c files assets).state.ops
          = (if (apply host c files assets).error = none then
              [FsOp.unlink (pathOf c.outputPath c.manifestJsonName),
                FsOp.write (pathOf c.outputPath c.manifestJsonName)
                  (host.jsonStringify
                    (loadManifests host c (initialState files assets)).state.manifestJson)]
            else []) ∧
        ((apply host c files assets).error = none →
          (apply host c files assets).state.files
            = objSet (objDelete files (pathOf c.outputPath c.manifestJsonName))
                (pathOf c.outputPath c.manifestJsonName)
                (host.jsonStringify
                  (loadManifests host c (initialState files assets)).state.manifestJson) ∧
          (apply host c files assets).state.assets = assets)) := by
  have hunits := unitsPass_settled host c _ h
  refine ⟨hunits, ?_⟩
  intro hjs hjson
  have hops : (loadManifests host c (initialState files assets)).state.ops = [] :=
    loadManifests_ops host c (initialState files assets)
  obtain ⟨hfiles, hassets⟩ := loadManifests_files host c (initialState files assets)
  have hfiles2 : (loadManifests host c (initialState files assets)).state.files = files :=
    hfiles
  have hassets2 : (loadManifests host c (initialState files assets)).state.assets = assets :=
    hassets
  unfold apply
  generalize hload : loadManifests host c (initialState files assets) = o0 at *
  obtain ⟨st0, e0⟩ := o0
  cases e0 with
  | some e =>
    refine ⟨?_, ?_⟩
    · simp only [Outcome.andThen]
      rw [if_neg (by simp)]
      exact hops
    · intro herr
      simp only [Outcome.andThen] at herr
      exact Option.noConfusion herr
  | none =>
    simp only [Outcome.andThen]
    generalize hu : unitsPass host c st0 = o1 at *
    obtain ⟨st1, e1⟩ := o1
    have hst1 : st1 = st0 := hunits
    subst hst1
    cases e1 with
    | some e =>
      refine ⟨?_, ?_⟩
      · simp only []
        rw [if_neg (by simp)]
        exact hops
      · intro herr
        exact Option.noConfusion herr
    | none =>
      have hm : manifestPass host c st1 = Outcome.ok st1 := by
        unfold manifestPass
        have : st1.manifestJs = none := hjs
        rw [this]
      have hex : existsSync st1 (pathOf c.outputPath c.manifestJsonName) = true := by
        unfold existsSync
        have : st1.files = files := hfiles2
        rw [this]
        exact hjson
      have hops1 : st1.ops = [] := hops
      have hf1 : st1.files = files := hfiles2
      have ha1 : st1.assets = assets := hassets2
      simp only [hm, Outcome.ok]
      unfold flushManifestJson unlinkSync
      rw [if_pos hex]
      simp only [Outcome.andThen, Outcome.ok, writeFileSync, hops1, hf1, ha1, if_true,
        List.nil_append, List.cons_append, List.singleton_append]
      exact ⟨trivial, fun _ => ⟨trivial, trivial⟩⟩

/-- C3, amended, at the build `settledBuild`. -/
theorem settled_run_witness :
    (unitsPass exampleHost settledBuild
        (loadManifests exampleHost settledBuild
          (initialState settledFiles [("app.6114f5ad.js".toList, some 1)])).state).state
      = (loadManifests exampleHost settledBuild
          (initialState settledFiles [("app.6114f5ad.js".toList, some 1)])).state ∧
      (apply exampleHost settledBuild settledFiles
          [("app.6114f5ad.js".toList, some 1)]).state.ops
        = [FsOp.unlink "/dist/manifest.json".toList,
            FsOp.write "/dist/manifest.json".toList "\x7b\x7d".toList] := by
  have hw := settled_run exampleHost settledBuild settledFiles
    [("app.6114f5ad.js".toList, some 1)] settledBuild_allSettled
  refine ⟨hw.1, ?_⟩
  have h2 := (hw.2 (by decide) (by decide)).1
  rw [h2]
  decide

/-- A chunk whose governing template does not match `nameRegex` makes the
callback throw a `TypeError`, in every state. -/
theorem processChunk_null_parts (host : Host) (c : Compilation) (st : State) (chunk : Chunk)
    (hparts : namePartsOf c chunk = none) :
    processChunk host c st chunk = Outcome.throw st RunError.typeError := by
  unfold processChunk
  rw [hparts]

/-- C4, failing input. The templates of `plainBuild` contain no fingerprint
placeholder, so `nameRegex` does not match and `nameParts` is `null`; the read
`nameParts[1]` then throws a `TypeError` instead of skipping the chunk.  The
run ends with that exception, before the JSON manifest is rewritten. -/
theorem template_without_placeholder_throws :
    matchNameRegex plainBuild.filename = none ∧
      namePartsOf plainBuild plainChunk = none ∧
      (apply exampleHost plainBuild plainFiles [("app.js".toList, some 1)]).error
        = some RunError.typeError ∧
      (apply exampleHost plainBuild plainFiles [("app.js".toList, some 1)]).state.ops = [] := by
  refine ⟨by decide, by decide, by decide, by decide⟩

theorem candidates_mem (host : Host) (st : State) (outputPath : Str) (chunk : Chunk) :
    ∀ (l files : List Str), candidates host st outputPath chunk l = some files →
      ∀ file ∈ files, isCandidate host st outputPath chunk file = some true := by
  intro l
  induction l with
  | nil =>
    intro files h file hfile
    have : files = [] := (Option.some.inj h).symm
    subst this
    exact absurd hfile (List.not_mem_nil _)
  | cons x t ih =>
    intro files h file hfile
    unfold candidates at h
    cases hx : isCandidate host st outputPath chunk x with
    | none =>
      rw [hx] at h
      exact Option.noConfusion h
    | some keep =>
      rw [hx] at h
      cases ht : candidates host st outputPath chunk t with
      | none =>
        rw [ht] at h
        exact Option.noConfusion h
      | some rest =>
        rw [ht] at h
        have hfiles : (if keep = true then x :: rest else rest) = files := Option.some.inj h
        cases keep with
        | true =>
          rw [if_pos rfl] at hfiles
          subst hfiles
          rcases List.mem_cons.1 hfile with rfl | hmem
          · exact hx
          · exact ih rest ht file hmem
        | false =>
          rw [if_neg (by decide)] at hfiles
          subst hfiles
          exact ih rest ht file hfile

/-- No file that passes the filter is a source map: it ends in `.js`, hence not
in `.map`. -/
theorem candidates_not_map (host : Host) (st : State) (outputPath : Str) (chunk : Chunk)
    (l files : List Str) (h : candidates host st outputPath chunk l = some files)
    (file : Str) (hfile : file ∈ files) :
    ".js".toList <:+ file ∧ ¬ ".map".toList <:+ file := by
  have hc := candidates_mem host st outputPath chunk l files h file hfile
  have hjs : (".js".toList).isSuffixOf file = true := by
    unfold isCandidate at hc
    cases h1 : regExpTestIgnoreCase host ("\\b".toList ++ chunk.id ++ "\\b".toList) file with
    | none =>
      rw [h1] at hc
      exact Option.noConfusion hc
    | some b1 =>
      cases h2 : regExpTestIgnoreCase host ("\\b".toList ++ chunk.name ++ "\\b".toList) file with
      | none =>
        rw [h1, h2] at hc
        exact Option.noConfusion hc
      | some b2 =>
        rw [h1, h2] at hc
        have hb := Option.some.inj hc
        simp only [Bool.and_eq_true] at hb
        exact hb.1.1.1
  have hsuf : ".js".toList <:+ file := List.isSuffixOf_iff_suffix.1 hjs
  refine ⟨hsuf, ?_⟩
  intro hmap
  have e1 := List.IsSuffix.getLast hsuf (by decide)
  have e2 := List.IsSuffix.getLast hmap (by decide)
  have e3 : (".js".toList).getLast (by decide) = (".map".toList).getLast (by decide) :=
    e1.trans e2.symm
  exact absurd e3 (by decide)

/-- C5, failing input. With the template `js/[name].[chunkhash:8].js` the manifest
script is `js/manifest.abcdef12.js`, which does not start with `manifest`.  It
passes the filter of its chunk and reaches the rename step: the loop over the
chunks renames it, and the later rename of the manifest script fails with
`ENOENT` because its file is gone. -/
theorem manifest_script_is_candidate :
    findManifestJsName (nestedBuild.chunks.map some) = some "js/manifest.abcdef12.js".toList ∧
      candidates exampleHost
          (loadManifests exampleHost nestedBuild
            (initialState nestedFiles [("js/manifest.abcdef12.js".toList, some 1)])).state
          nestedBuild.outputPath nestedChunk nestedChunk.files
        = some ["js/manifest.abcdef12.js".toList] ∧
      (apply exampleHost nestedBuild nestedFiles
          [("js/manifest.abcdef12.js".toList, some 1)]).state.ops
        = [FsOp.unlink "/dist/js/manifest.abcdef12.js".toList,
            FsOp.write "/dist/js/manifest.5c0a44a3.js".toList
              "var installedChunks=[]".toList] ∧
      (apply exampleHost nestedBuild nestedFiles
          [("js/manifest.abcdef12.js".toList, some 1)]).error
        = some (RunError.enoent "/dist/js/manifest.abcdef12.js".toList) := by
  refine ⟨by decide, by decide, by decide, by decide⟩

/-- C10, failing input. For the template `[name].[ChunkHash:8].js` the match of
`nameRegex` succeeds and yields the length `8`, but its first group is the
text `ChunkHash` as written, which the callback compares with `chunkhash`
case-sensitively.  The chunk is skipped and its stale file keeps its name;
with the placeholder in lower case the same file is renamed.
`getNewFileName` itself accepts the mixed-case placeholder. -/
theorem mixed_case_placeholder_skipped :
    matchNameRegex "[name].[ChunkHash:8].js".toList
        = some ("ChunkHash".toList, some "8".toList) ∧
      processChunk exampleHost mixedCaseBuild
          (loadManifests exampleHost mixedCaseBuild
            (initialState staleFiles [("app.abcdef12.js".toList, some 1)])).state staleChunk
        = Outcome.ok (loadManifests exampleHost mixedCaseBuild
            (initialState staleFiles [("app.abcdef12.js".toList, some 1)])).state ∧
      objGet (apply exampleHost mixedCaseBuild staleFiles
          [("app.abcdef12.js".toList, some 1)]).state.files "/dist/app.abcdef12.js".toList
        = some "console.log(1)".toList ∧
      objGet (apply exampleHost lowerCaseBuild staleFiles
          [("app.abcdef12.js".toList, some 1)]).state.files "/dist/app.abcdef12.js".toList
        = none ∧
      objGet (apply exampleHost lowerCaseBuild staleFiles
          [("app.abcdef12.js".toList, some 1)]).state.files "/dist/app.6114f5ad.js".toList
        = some "console.log(1)".toList ∧
      getNewFileName "[name].[ChunkHash:8].js".toList "0".toList "app".toList
          "6114f5ad".toList "js".toList
        = "app.6114f5ad.js".toList := by
  refine ⟨by decide, by decide, by decide, by decide, by decide, by decide⟩

/-! ### The rename of the manifest script -/

theorem andThen_error_none (o : Outcome) (f : State → Outcome)
    (h : (o.andThen f).error = none) : o.error = none ∧ o.andThen f = f o.state := by
  unfold Outcome.andThen at h ⊢
  cases he : o.error with
  | some e =>
    rw [he] at h
    simp only [] at h
    rw [he] at h
    exact Option.noConfusion h
  | none => exact ⟨rfl, rfl⟩

theorem renameAsset_ops_mono (host : Host) (st : State) (outputPath contents fullPath oldName
    newName refOld refNew : Str) (op : FsOp) (hop : op ∈ st.ops) :
    op ∈ (renameAsset host st outputPath contents fullPath oldName newName refOld
      refNew).state.ops := by
  unfold renameAsset
  cases regExpReplaceAll host refOld contents refNew with
  | none => exact hop
  | some written =>
    simp only []
    unfold unlinkSync
    by_cases hex : existsSync st fullPath = true
    · rw [if_pos hex]
      simp [Outcome.andThen, Outcome.ok, writeFileSync, hop]
    · rw [if_neg hex]
      exact hop

theorem renameAsset_write (host : Host) (st : State) (outputPath contents fullPath oldName
    newName refOld refNew : Str)
    (h : (renameAsset host st outputPath contents fullPath oldName newName refOld
      refNew).error = none) :
    ∃ written : Str, regExpReplaceAll host refOld contents refNew = some written ∧
      FsOp.write (pathOf outputPath newName) written ∈
        (renameAsset host st outputPath contents fullPath oldName newName refOld
          refNew).state.ops := by
  unfold renameAsset at h ⊢
  cases hr : regExpReplaceAll host refOld contents refNew with
  | none =>
    rw [hr] at h
    exact Option.noConfusion h
  | some written =>
    rw [hr] at h
    refine ⟨written, rfl, ?_⟩
    simp only [] at h ⊢
    unfold unlinkSync at h ⊢
    by_cases hex : existsSync st fullPath = true
    · rw [if_pos hex]
      simp [Outcome.andThen, Outcome.ok, writeFileSync]
    · rw [if_neg hex] at h
      exact Option.noConfusion h

theorem chain_ops_mem (o1 : Outcome) (g h : State → Outcome) (op : FsOp)
    (hm : op ∈ o1.state.ops)
    (hg : ∀ s : State, op ∈ s.ops → op ∈ (g s).state.ops)
    (hh : ∀ s : State, op ∈ s.ops → op ∈ (h s).state.ops) :
    op ∈ (o1.andThen fun st1 => (g st1).andThen h).state.ops := by
  unfold Outcome.andThen
  cases o1.error with
  | some e => exact hm
  | none =>
    simp only []
    have h2 := hg o1.state hm
    cases (g o1.state).error with
    | some e => exact h2
    | none => exact hh _ h2

/-- When a manifest script is loaded and its rename does not throw, the file
that `manifestPass` writes is named after the digest of the payload held in
`manifestJs`, and holds that payload with the old name of the script replaced
by the new one. -/
theorem manifestPass_write (host : Host) (c : Compilation) (st : State) (js : Str)
    (hjs : st.manifestJs = some js) (herr : (manifestPass host c st).error = none) :
    ∃ (parts : Str × Option Str) (written : Str),
      matchNameRegex c.chunkFilename = some parts ∧
      regExpReplaceAll host ((findManifestJsName (c.chunks.map some)).getD []) js
          (getNewFileName c.chunkFilename "-1".toList "manifest".toList
            (getHash (host.md5 js) (lengthArg parts.2)) "js".toList) = some written ∧
      FsOp.write
          (pathOf c.outputPath
            (getNewFileName c.chunkFilename "-1".toList "manifest".toList
              (getHash (host.md5 js) (lengthArg parts.2)) "js".toList))
          written ∈ (manifestPass host c st).state.ops := by
  unfold manifestPass at herr ⊢
  rw [hjs] at herr ⊢
  simp only [] at herr ⊢
  unfold newManifestName at herr ⊢
  cases hparts : matchNameRegex c.chunkFilename with
  | none =>
    rw [hparts] at herr
    exact Option.noConfusion herr
  | some parts =>
    rw [hparts] at herr
    simp only [Option.map_some'] at herr ⊢
    obtain ⟨h1, _⟩ := andThen_error_none _ _ herr
    obtain ⟨written, hw, hmem⟩ := renameAsset_write host st _ _ _ _ _ _ _ h1
    refine ⟨parts, written, rfl, hw, ?_⟩
    apply chain_ops_mem
    · exact hmem
    · intro s hs
      split
      · exact hs
      · exact renameAsset_ops_mono host _ _ _ _ _ _ _ _ _ hs
    · intro s hs
      split
      · exact hs
      · split
        · exact hs
        · exact hs

/-- C6. For a manifest script payload, a unit id that is a decimal numeral,
and two hexadecimal fingerprints `old` and `new` of equal length that differ,
the per-unit patch succeeds and its result is the payload with the occurrences
of `id:"old"`, found from left to right, replaced by `id:"new"`.  The result
has no occurrence of `id:"old"`, and it contains `id:"new"` whenever the payload
contained `id:"old"`.  The run keeps the patched payload in `manifestJs`, and
the rename of the manifest script names the file it writes after the digest
of that patched payload. -/
theorem patchManifestJs_replaces (host : Host) (payload id old new : Str)
    (hid : id ≠ [] ∧ ∀ c ∈ id, c.isDigit = true)
    (hold : IsHex old) (hnew : IsHex new) (hlen : old.length = new.length) (hne : old ≠ new) :
    ∃ patched : Str, patchManifestJs host payload id old new = some patched ∧
      patched = replaceLiteralAux (id ++ ":\"".toList ++ old ++ "\"".toList)
        (id ++ ":\"".toList ++ new ++ "\"".toList) 0 payload ∧
      ¬ (id ++ ":\"".toList ++ old ++ "\"".toList) <:+: patched ∧
      ((id ++ ":\"".toList ++ old ++ "\"".toList) <:+: payload →
        (id ++ ":\"".toList ++ new ++ "\"".toList) <:+: patched) ∧
      (∀ (st : State) (chunk : Chunk), chunk.id = id → st.manifestJs = some payload →
        (patchManifests host st chunk old new).state.manifestJs = some patched) ∧
      (∀ (c : Compilation) (st : State), st.manifestJs = some patched →
        (manifestPass host c st).error = none →
        ∃ (parts : Str × Option Str) (written : Str),
          matchNameRegex c.chunkFilename = some parts ∧
          regExpReplaceAll host ((findManifestJsName (c.chunks.map some)).getD []) patched
              (getNewFileName c.chunkFilename "-1".toList "manifest".toList
                (getHash (host.md5 patched) (lengthArg parts.2)) "js".toList) = some written ∧
          FsOp.write
              (pathOf c.outputPath
                (getNewFileName c.chunkFilename "-1".toList "manifest".toList
                  (getHash (host.md5 patched) (lengthArg parts.2)) "js".toList))
              written ∈ (manifestPass host c st).state.ops) := by
  obtain ⟨hsA, _, hi1, hi2, hx⟩ := assoc_literal id old hid.2 hold
  obtain ⟨_, hdB, _, _, hy⟩ := assoc_literal id new hid.2 hnew
  have hAne : id ++ ":\"".toList ++ old ++ "\"".toList ≠ [] := by simp
  have hlenAB : (id ++ ":\"".toList ++ old ++ "\"".toList).length
      = (id ++ ":\"".toList ++ new ++ "\"".toList).length := by
    simp [hlen]
  have hneAB : id ++ ":\"".toList ++ old ++ "\"".toList
      ≠ id ++ ":\"".toList ++ new ++ "\"".toList :=
    fun e => hne (assoc_injective id old new e)
  have hpatch : patchManifestJs host payload id old new
      = some (replaceLiteralAux (id ++ ":\"".toList ++ old ++ "\"".toList)
          (id ++ ":\"".toList ++ new ++ "\"".toList) 0 payload) := by
    unfold patchManifestJs
    exact regExpReplaceAll_literal host _ _ _ hAne hsA hdB
  refine ⟨_, hpatch, rfl, ?_, ?_, ?_, ?_⟩
  · exact replaceLiteralAux_free _ _ hlenAB hneAB
      (assoc_overlaps_false id old new hi1 hi2 hx)
      (assoc_overlaps_false id new old hi1 hi2 hy) payload 0
  · intro hocc
    exact replaceLiteralAux_occurs _ _ hAne payload 0 (by simpa using hocc)
  · intro st chunk hc hjs
    subst hc
    exact patchManifests_manifestJs host st chunk old new payload _ hjs hpatch
  · intro c st hjs herr
    exact manifestPass_write host c st _ hjs herr

/-- C6 at the build `staleManifestBuild`: the manifest script holds `5:"abcdef12"`
and the file of chunk 5 has the digest `6114f5ad...`.  The patch gives
`5:"6114f5ad"`, and the run writes the patched script under the name
`manifest.6301c678.js`, after the digest of the patched payload. -/
theorem patchManifestJs_replaces_witness :
    (∃ patched : Str,
      patchManifestJs exampleHost "var h=\x7b5:\"abcdef12\"\x7d".toList "5".toList
        "abcdef12".toList "6114f5ad".toList = some patched ∧
      patched = replaceLiteralAux ("5".toList ++ ":\"".toList ++ "abcdef12".toList ++ "\"".toList)
        ("5".toList ++ ":\"".toList ++ "6114f5ad".toList ++ "\"".toList) 0
        "var h=\x7b5:\"abcdef12\"\x7d".toList ∧
      ¬ ("5".toList ++ ":\"".toList ++ "abcdef12".toList ++ "\"".toList) <:+: patched) ∧
      replaceLiteralAux ("5".toList ++ ":\"".toList ++ "abcdef12".toList ++ "\"".toList)
        ("5".toList ++ ":\"".toList ++ "6114f5ad".toList ++ "\"".toList) 0
        "var h=\x7b5:\"abcdef12\"\x7d".toList = "var h=\x7b5:\"6114f5ad\"\x7d".toList ∧
      (apply exampleHost staleManifestBuild staleManifestFiles staleManifestAssets).error
        = none ∧
      objGet (apply exampleHost staleManifestBuild staleManifestFiles
          staleManifestAssets).state.files "/dist/manifest.6301c678.js".toList
        = some "var h=\x7b5:\"6114f5ad\"\x7d".toList ∧
      objGet (apply exampleHost staleManifestBuild staleManifestFiles
          staleManifestAssets).state.files "/dist/manifest.01234567.js".toList = none := by
  refine ⟨?_, by decide, by decide, by decide, by decide⟩
  obtain ⟨patched, h1, h2, h3, _⟩ :=
    patchManifestJs_replaces exampleHost "var h=\x7b5:\"abcdef12\"\x7d".toList "5".toList
      "abcdef12".toList "6114f5ad".toList ⟨by decide, by decide⟩ (by decide) (by decide)
      (by decide) (by decide)
  exact ⟨patched, h1, h2, h3⟩

/-! ### The engine of the host in the examples -/

/-- Facts established on the example builds hold for every regular-expression
engine of the host: each pattern source that occurs in these runs lies in the
interpreted fragment, so the engine is never consulted. -/
theorem examples_engine_independent (replaceEngine : Str → Str → Str → Option Str)
    (testEngine : Str → Str → Option Bool) :
    (apply (exampleHostWith replaceEngine testEngine) settledBuild settledFiles
        [("app.6114f5ad.js".toList, some 1)]).state.ops
      = [FsOp.unlink "/dist/manifest.json".toList,
          FsOp.write "/dist/manifest.json".toList "\x7b\x7d".toList] ∧
    (apply (exampleHostWith replaceEngine testEngine) settledManifestBuild
        settledManifestFiles [("manifest.5c0a44a3.js".toList, some 1)]).error = none ∧
    (apply (exampleHostWith replaceEngine testEngine) settledManifestBuild
        settledManifestFiles [("manifest.5c0a44a3.js".toList, some 1)]).state.assets = [] ∧
    (apply (exampleHostWith replaceEngine testEngine) plainBuild plainFiles
        [("app.js".toList, some 1)]).error = some RunError.typeError ∧
    candidates (exampleHostWith replaceEngine testEngine)
        (loadManifests (exampleHostWith replaceEngine testEngine) nestedBuild
          (initialState nestedFiles [("js/manifest.abcdef12.js".toList, some 1)])).state
        nestedBuild.outputPath nestedChunk nestedChunk.files
      = some ["js/manifest.abcdef12.js".toList] ∧
    isCandidate (exampleHostWith replaceEngine testEngine)
        (initialState [("/dist/app?.js".toList, "console.log(1)".toList)] [])
        "/dist".toList staleChunk "app?.js".toList = some true :=
  ⟨rfl, rfl, rfl, rfl, rfl, rfl⟩

end AfterChunkHash
